import Mathlib

/-!
Verification development for the scheduler-side cache of a cluster workload
orchestrator (package `cache` of the repository).  The cache core
(`schedulerCache` with its assumed-pod state machine and the in-place
vertical-resize decision engine) is embedded shallowly from the source file;
the `NodeInfo` aggregator, the pod-key function and the label-selector
matching live in parts of the repository outside the provided sources and
are modelled from the specification (each such definition is marked
`Modelled from the spec:` in its doc comment).

Machine conventions:
* times and resource quantities are `Int` (CPU in milli-units, memory in
  bytes);
* Go maps become association lists (`List (String × α)`) with the
  first-binding lookup `alookup`, replacement insert `ainsert` and single
  delete `aerase`; the set of assumed keys becomes a `List String`;
* fallible Go code returns `Except CacheErr _` or pairs the new state with
  an `Option CacheErr`; Go `panic` / nil-pointer dereference / fatal logging
  is modelled by the error constructors for which `CacheErr.isFatal` holds
  (in Go such a fault terminates the process, so the state paired with a
  fatal error is the residual state at the fault).
-/

/-- Resource vector restricted to the CPU and memory dimensions that the
claims and the resize engine consult (CPU in milli-units, memory in bytes). -/
structure Resource where
  milliCPU : Int
  memory : Int
deriving DecidableEq, Repr

def Resource.zero : Resource := ⟨0, 0⟩

/-- A Go `v1.ResourceList` (map from resource name to quantity), restricted to
the cpu and memory keys.  `nilRL` is the nil map, which Go distinguishes from
an allocated map: writing into a nil map panics. -/
inductive ResourceList where
  | nilRL : ResourceList
  | entries (cpu memory : Option Int) : ResourceList
deriving DecidableEq, Repr

def ResourceList.cpuOf : ResourceList → Option Int
  | .nilRL => none
  | .entries c _ => c

def ResourceList.memOf : ResourceList → Option Int
  | .nilRL => none
  | .entries _ m => m

/-- Whether ranging over the map produces at least one key/value pair. -/
def ResourceList.hasEntries : ResourceList → Bool
  | .nilRL => false
  | .entries c m => c.isSome || m.isSome

/-- Error kinds of the cache.  The first block are errors the Go code returns
to its caller; the constructors from `corrupted` on model process-terminating
faults (`glog.Fatalf`, panics, nil-map writes, out-of-range indexing). -/
inductive CacheErr where
  | alreadyPresent
  | nodeMismatch
  | notAssumed
  | alreadyAdded
  | notAdded
  | notFoundInNode
  | unknownNode
  | pdbSelectorInvalid
  | corrupted
  | nilDeref
  | nilMapWrite
  | idxOutOfRange
deriving DecidableEq, Repr

def CacheErr.isFatal : CacheErr → Bool
  | .corrupted => true
  | .nilDeref => true
  | .nilMapWrite => true
  | .idxOutOfRange => true
  | _ => false

/-- `dst[k] = v` for every key `k` of `src` (the Go per-key upsert loop);
writing at least one key into a nil destination map panics. -/
def ResourceList.upsertAll (dst src : ResourceList) : Except CacheErr ResourceList :=
  match src with
  | .nilRL => .ok dst
  | .entries sc sm =>
    if sc = none ∧ sm = none then .ok dst
    else
      match dst with
      | .nilRL => .error .nilMapWrite
      | .entries dc dm =>
        .ok (.entries (match sc with | some v => some v | none => dc)
                      (match sm with | some v => some v | none => dm))

/-- `Resource.Add` of the NodeInfo aggregator.  Modelled from the spec:
requested resource is the sum over workloads of each per-container request
vector; absent keys contribute nothing. -/
def Resource.addRL (r : Resource) (rl : ResourceList) : Resource :=
  ⟨r.milliCPU + (rl.cpuOf.getD 0), r.memory + (rl.memOf.getD 0)⟩

def Resource.addR (r s : Resource) : Resource :=
  ⟨r.milliCPU + s.milliCPU, r.memory + s.memory⟩

def Resource.subR (r s : Resource) : Resource :=
  ⟨r.milliCPU - s.milliCPU, r.memory - s.memory⟩

structure Container where
  name : String
  requests : ResourceList
  limits : ResourceList
deriving DecidableEq, Repr

/-- `v1.ContainerResources`: a named per-container resource requirement used
by resize requests and rollback records. -/
structure ContainerResources where
  name : String
  requests : ResourceList
  limits : ResourceList
deriving DecidableEq, Repr

inductive ResizeAction where
  | unset
  | update
  | updateDone
  | reschedule
  | nonePerPolicy
  | nonePerPDBViolation
deriving DecidableEq, Repr

inductive ResizePolicy where
  | unset
  | inPlacePreferred
  | inPlaceOnly
  | restart
deriving DecidableEq, Repr

inductive CondStatus where
  | condTrue
  | condFalse
  | condUnknown
deriving DecidableEq, Repr

structure PodCondition where
  condType : String
  status : CondStatus
  message : String
deriving DecidableEq, Repr

def podResourcesResizeStatusType : String := "PodResourcesResizeStatus"

def isResizeStatusCond (pc : PodCondition) : Bool :=
  pc.condType == podResourcesResizeStatusType

/-- The `Spec.ResizeResources` record of a pod. -/
structure ResizeResources where
  request : List ContainerResources
  actionVersion : String
  action : ResizeAction
  rollback : List ContainerResources
deriving DecidableEq, Repr

inductive PodPhase where
  | pending
  | running
  | succeeded
  | failed
  | unknownPhase
deriving DecidableEq, Repr

structure Pod where
  ns : String
  name : String
  nodeName : String
  resourceVersion : String
  labels : List (String × String)
  containers : List Container
  phase : PodPhase
  deletionTimestamp : Option Int
  conditions : List PodCondition
  resizeResourcesPolicy : ResizePolicy
  resizeResources : Option ResizeResources
deriving DecidableEq, Repr

/-- `podState`: the cached workload object with expiration bookkeeping. -/
structure PodState where
  pod : Pod
  deadline : Option Int
  bindingFinished : Bool
deriving DecidableEq, Repr

structure Node where
  name : String
  allocatable : Resource
deriving DecidableEq, Repr

/-- Modelled from the spec: per-node record with the assigned workload set,
summed resource usage and a monotonic generation counter. -/
structure NodeInfo where
  node : Option Node
  pods : List Pod
  requestedResource : Resource
  nonZeroRequest : Resource
  allocatableResource : Resource
  generation : Int
deriving DecidableEq, Repr

/-- A disruption budget.  Modelled from the spec: the selector is the
converted label selector; `none` stands for a selector that fails to parse,
`some reqs` for a parsed match-labels requirement list (empty means the
empty selector). -/
structure PDB where
  name : String
  uid : String
  labels : List (String × String)
  selector : Option (List (String × String))
  disruptionsAllowed : Int
deriving DecidableEq, Repr

/-- The mutex-guarded state of `schedulerCache` (the mutex itself, the stop
channel and the reaper period are omitted: operations are modelled as atomic
state transformers). -/
structure SchedCache where
  ttl : Int
  assumedPods : List String
  podStates : List (String × PodState)
  nodes : List (String × NodeInfo)
  pdbs : List (String × PDB)
deriving DecidableEq, Repr

/-! ### Association-list primitives (Go map operations) -/

def alookup {α : Type} : List (String × α) → String → Option α
  | [], _ => none
  | (k, v) :: t, k' => if k = k' then some v else alookup t k'

def ainsert {α : Type} : List (String × α) → String → α → List (String × α)
  | [], k, v => [(k, v)]
  | (k', v') :: t, k, v => if k' = k then (k, v) :: t else (k', v') :: ainsert t k v

def aerase {α : Type} : List (String × α) → String → List (String × α)
  | [], _ => []
  | (k', v') :: t, k => if k' = k then t else (k', v') :: aerase t k

def akeys {α : Type} (m : List (String × α)) : List String := m.map Prod.fst

/-- Set-insert for the `assumedPods` key set. -/
def sinsert (l : List String) (k : String) : List String :=
  if k ∈ l then l else l ++ [k]

/-- Set-delete for the `assumedPods` key set. -/
def serase : List String → String → List String
  | [], _ => []
  | x :: t, k => if x = k then t else x :: serase t k

/-! ### Spec-modelled repository parts outside the provided sources -/

/-- Modelled from the spec: `getPodKey`, a stable identifier derived from the
workload's namespace and unique identity (the function lives outside the
provided sources). -/
def getPodKey (p : Pod) : String := p.ns ++ "/" ++ p.name

/-- Modelled from the spec: per-workload request vector, the sum over the
workload's containers of their request vectors. -/
def podRequest (p : Pod) : Resource :=
  p.containers.foldl (fun r c => r.addRL c.requests) Resource.zero

def defaultMilliCPURequest : Int := 100

def defaultMemoryRequest : Int := 209715200

/-- Modelled from the spec: the "non-zero" request vector substitutes a floor
value on a dimension a container declares as zero (or leaves absent). -/
def podNonZeroRequest (p : Pod) : Resource :=
  p.containers.foldl
    (fun r c =>
      let cpu := (c.requests.cpuOf.getD 0)
      let mem := (c.requests.memOf.getD 0)
      ⟨r.milliCPU + (if cpu = 0 then defaultMilliCPURequest else cpu),
       r.memory + (if mem = 0 then defaultMemoryRequest else mem)⟩)
    Resource.zero

/-- Modelled from the spec: `NewNodeInfo()` with no node descriptor, no pods
and zeroed sums. -/
def NewNodeInfo : NodeInfo :=
  ⟨none, [], Resource.zero, Resource.zero, Resource.zero, 0⟩

/-- Modelled from the spec: `NodeInfo.AddPod` appends the workload to `pods`,
adds its resource vector to the running sums and bumps `generation`. -/
def NodeInfo.AddPod (n : NodeInfo) (p : Pod) : NodeInfo :=
  { n with pods := n.pods ++ [p],
           requestedResource := n.requestedResource.addR (podRequest p),
           nonZeroRequest := n.nonZeroRequest.addR (podNonZeroRequest p),
           generation := n.generation + 1 }

/-- Modelled from the spec: `NodeInfo.RemovePod` locates the workload by key
within `pods` (failing with NotFound if absent), removes it, subtracts its
resource vector and bumps `generation`. -/
def NodeInfo.RemovePod (n : NodeInfo) (p : Pod) : Except CacheErr NodeInfo :=
  if n.pods.any (fun q => getPodKey q == getPodKey p) then
    .ok { n with pods := n.pods.eraseP (fun q => getPodKey q == getPodKey p),
                 requestedResource := n.requestedResource.subR (podRequest p),
                 nonZeroRequest := n.nonZeroRequest.subR (podNonZeroRequest p),
                 generation := n.generation + 1 }
  else .error .notFoundInNode

/-- Modelled from the spec: `NodeInfo.SetNode` stores the node descriptor,
recomputes `allocatableResource` from it and bumps `generation`. -/
def NodeInfo.SetNode (n : NodeInfo) (node : Node) : NodeInfo :=
  { n with node := some node,
           allocatableResource := node.allocatable,
           generation := n.generation + 1 }

/-- Modelled from the spec: `NodeInfo.RemoveNode` clears the node descriptor
and bumps `generation`. -/
def NodeInfo.RemoveNode (n : NodeInfo) : NodeInfo :=
  { n with node := none, generation := n.generation + 1 }

/-- Modelled from the spec: match-labels selector semantics — every
requirement pair must occur in the workload's label set. -/
def labelsMatch (reqs lbls : List (String × String)) : Bool :=
  reqs.all (fun kv => alookup lbls kv.1 == some kv.2)

/-! ### Cache core operations (translated from `schedulerCache`) -/

/-- Internal `addPod`: resolve (or create) the NodeInfo named by the pod and
account the pod there. -/
def SchedCache.addPod (c : SchedCache) (p : Pod) : SchedCache :=
  let n := (alookup c.nodes p.nodeName).getD NewNodeInfo
  { c with nodes := ainsert c.nodes p.nodeName (n.AddPod p) }

/-- Internal `removePod`: unaccount the pod from its node, deleting the
NodeInfo when it holds no pods and no node descriptor.  A missing NodeInfo is
a nil-pointer dereference in Go (`nilDeref`). -/
def SchedCache.removePod (c : SchedCache) (p : Pod) : Except CacheErr SchedCache :=
  match alookup c.nodes p.nodeName with
  | none => .error .nilDeref
  | some n =>
    match n.RemovePod p with
    | .error e => .error e
    | .ok n' =>
      if n'.pods = [] ∧ n'.node = none then
        .ok { c with nodes := aerase c.nodes p.nodeName }
      else
        .ok { c with nodes := ainsert c.nodes p.nodeName n' }

/-- `AssumePod`. -/
def SchedCache.AssumePod (c : SchedCache) (p : Pod) : SchedCache × Option CacheErr :=
  let key := getPodKey p
  if (alookup c.podStates key).isSome then
    (c, some .alreadyPresent)
  else
    let c1 := c.addPod p
    ({ c1 with podStates := ainsert c1.podStates key ⟨p, none, false⟩,
               assumedPods := sinsert c1.assumedPods key }, none)

/-- `finishBinding` (time injected, as in the source). -/
def SchedCache.finishBinding (c : SchedCache) (p : Pod) (now : Int) :
    SchedCache × Option CacheErr :=
  let key := getPodKey p
  match alookup c.podStates key with
  | some st =>
    if key ∈ c.assumedPods then
      let st' : PodState := { st with bindingFinished := true, deadline := some (now + c.ttl) }
      ({ c with podStates := ainsert c.podStates key st' }, none)
    else (c, none)
  | none => (c, none)

/-- `ForgetPod`. -/
def SchedCache.ForgetPod (c : SchedCache) (p : Pod) : SchedCache × Option CacheErr :=
  let key := getPodKey p
  match alookup c.podStates key with
  | some st =>
    if st.pod.nodeName ≠ p.nodeName then (c, some .nodeMismatch)
    else if key ∈ c.assumedPods then
      match c.removePod p with
      | .error e => (c, some e)
      | .ok c1 => ({ c1 with assumedPods := serase c1.assumedPods key,
                             podStates := aerase c1.podStates key }, none)
    else (c, some .notAssumed)
  | none => (c, some .notAssumed)

/-- `AddPod` (the authoritative confirming event).  In the assumed branch the
source ignores the error of the internal `removePod` (a panic still
propagates). -/
def SchedCache.AddPod (c : SchedCache) (p : Pod) : SchedCache × Option CacheErr :=
  let key := getPodKey p
  match alookup c.podStates key with
  | some st =>
    if key ∈ c.assumedPods then
      let moved : SchedCache × Option CacheErr :=
        if st.pod.nodeName ≠ p.nodeName then
          match c.removePod st.pod with
          | .error CacheErr.nilDeref => (c, some CacheErr.nilDeref)
          | .error _ => (c.addPod p, none)
          | .ok c1 => (c1.addPod p, none)
        else (c, none)
      match moved with
      | (c2, none) =>
        let st' : PodState := { st with deadline := none, pod := p }
        ({ c2 with assumedPods := serase c2.assumedPods key,
                   podStates := ainsert c2.podStates key st' }, none)
      | (c2, some e) => (c2, some e)
    else (c, some .alreadyAdded)
  | none =>
    let c1 := c.addPod p
    ({ c1 with podStates := ainsert c1.podStates key ⟨p, none, false⟩ }, none)

/-- `RemovePod` (the authoritative delete event).  A node-name mismatch on a
confirmed pod is `glog.Fatalf` in the source (`corrupted`, fatal). -/
def SchedCache.RemovePod (c : SchedCache) (p : Pod) : SchedCache × Option CacheErr :=
  let key := getPodKey p
  match alookup c.podStates key with
  | some st =>
    if key ∉ c.assumedPods then
      if st.pod.nodeName ≠ p.nodeName then (c, some .corrupted)
      else
        match c.removePod st.pod with
        | .error e => (c, some e)
        | .ok c1 => ({ c1 with podStates := aerase c1.podStates key }, none)
    else (c, some .notAdded)
  | none => (c, some .notAdded)

/-- `AddNode`. -/
def SchedCache.AddNode (c : SchedCache) (node : Node) : SchedCache × Option CacheErr :=
  let n := (alookup c.nodes node.name).getD NewNodeInfo
  ({ c with nodes := ainsert c.nodes node.name (n.SetNode node) }, none)

/-- `UpdateNode`. -/
def SchedCache.UpdateNode (c : SchedCache) (oldNode newNode : Node) :
    SchedCache × Option CacheErr :=
  let n := (alookup c.nodes newNode.name).getD NewNodeInfo
  ({ c with nodes := ainsert c.nodes newNode.name (n.SetNode newNode) }, none)

/-- `RemoveNode`.  The source uses the map lookup without a presence check,
so an untracked name dereferences a nil `NodeInfo` (`nilDeref`, fatal). -/
def SchedCache.RemoveNode (c : SchedCache) (node : Node) : SchedCache × Option CacheErr :=
  match alookup c.nodes node.name with
  | none => (c, some .nilDeref)
  | some n =>
    let n' := n.RemoveNode
    if n'.pods = [] ∧ n'.node = none then
      ({ c with nodes := aerase c.nodes node.name }, none)
    else
      ({ c with nodes := ainsert c.nodes node.name n' }, none)

/-- `expirePod`. -/
def SchedCache.expirePod (c : SchedCache) (key : String) (ps : PodState) :
    SchedCache × Option CacheErr :=
  match c.removePod ps.pod with
  | .error e => (c, some e)
  | .ok c1 => ({ c1 with assumedPods := serase c1.assumedPods key,
                         podStates := aerase c1.podStates key }, none)

/-! ### Resize decision engine (translated from the source) -/

/-- The per-container loop of `rollbackPodResources`: walk the incoming pod's
containers in lockstep with the cached pod's containers (the source indexes
the cached containers with the incoming loop index), restoring requests and
limits from the first matching rollback record. -/
def rollbackStep (rbs : List ContainerResources) :
    List Container → List Container → Except CacheErr (List Container × List Container)
  | [], cs => .ok ([], cs)
  | n :: ns, cs =>
    match rbs.find? (fun e => e.name == n.name) with
    | none =>
      match cs with
      | [] =>
        match rollbackStep rbs ns [] with
        | .error e => .error e
        | .ok r => .ok (n :: r.1, r.2)
      | ch :: ct =>
        match rollbackStep rbs ns ct with
        | .error e => .error e
        | .ok r => .ok (n :: r.1, ch :: r.2)
    | some rb =>
      let n' : Container :=
        { n with requests := if rb.requests ≠ .nilRL then rb.requests else n.requests,
                 limits := if rb.limits ≠ .nilRL then rb.limits else n.limits }
      if rb.requests ≠ .nilRL ∨ rb.limits ≠ .nilRL then
        match cs with
        | [] => .error .idxOutOfRange
        | ch :: ct =>
          let ch' : Container :=
            { ch with requests := if rb.requests ≠ .nilRL then rb.requests else ch.requests,
                      limits := if rb.limits ≠ .nilRL then rb.limits else ch.limits }
          match rollbackStep rbs ns ct with
          | .error e => .error e
          | .ok r => .ok (n' :: r.1, ch' :: r.2)
      else
        match cs with
        | [] =>
          match rollbackStep rbs ns [] with
          | .error e => .error e
          | .ok r => .ok (n' :: r.1, r.2)
        | ch :: ct =>
          match rollbackStep rbs ns ct with
          | .error e => .error e
          | .ok r => .ok (n' :: r.1, ch :: r.2)

/-- `rollbackPodResources`: restore previous resource values on both the
incoming pod and the cached pod from the saved rollback records. -/
def SchedCache.rollbackPodResources (c : SchedCache) (oldPod newPod : Pod) :
    Except CacheErr (SchedCache × Pod) :=
  let key := getPodKey oldPod
  match alookup c.podStates key with
  | none => .error .nilDeref
  | some st =>
    match newPod.resizeResources with
    | none => .error .nilDeref
    | some rr =>
      match rollbackStep rr.rollback newPod.containers st.pod.containers with
      | .error e => .error e
      | .ok r =>
        let st' := { st with pod := { st.pod with containers := r.2 } }
        .ok ({ c with podStates := ainsert c.podStates key st' },
             { newPod with containers := r.1 })

/-- `processPodResizeStatus`: consume the first resize-status condition; on a
reported failure matching the last action's version, roll back; in either
case mark the action done and clear the rollback record. -/
def SchedCache.processPodResizeStatus (c : SchedCache) (oldPod newPod : Pod) :
    Except CacheErr (SchedCache × Pod) :=
  match newPod.conditions.find? isResizeStatusCond with
  | none => .ok (c, newPod)
  | some cond =>
    match newPod.resizeResources with
    | none => .error .nilDeref
    | some rr =>
      if cond.message = rr.actionVersion then
        match (if cond.status = .condFalse ∧ rr.rollback ≠ [] then
                 c.rollbackPodResources oldPod newPod
               else .ok (c, newPod)) with
        | .error e => .error e
        | .ok r =>
          match r.2.resizeResources with
          | none => .error .nilDeref
          | some rr1 =>
            let rr' : ResizeResources := { rr1 with
              actionVersion := r.2.resourceVersion,
              action := .updateDone, rollback := [] }
            .ok (r.1, { r.2 with resizeResources := some rr' })
      else .ok (c, newPod)

/-- The map from container name to resize requirement built by
`getPodResizeRequirements` (later entries overwrite earlier ones, as with a
Go map). -/
def buildResizeMap (l : List ContainerResources) : List (String × Container) :=
  l.foldl (fun m cr => ainsert m cr.name ⟨cr.name, cr.requests, cr.limits⟩) []

/-- The per-container summation loop of `getPodResizeRequirements`: each
container contributes its request vector with the resize's per-container
requests overlaid on top. -/
def sumPodResource (rmap : List (String × Container)) :
    List Container → Resource → Except CacheErr Resource
  | [], acc => .ok acc
  | cont :: rest, acc =>
    match alookup rmap cont.name with
    | some rc =>
      match ResourceList.upsertAll cont.requests rc.requests with
      | .error e => .error e
      | .ok merged => sumPodResource rmap rest (acc.addRL merged)
    | none => sumPodResource rmap rest (acc.addRL cont.requests)

/-- `getPodResizeRequirements`: the prospective per-workload aggregate request
obtained by overlaying the resize's per-container requests on the current
containers.  The Go function's error result is always nil; the `Except` layer
carries only the nil-map-write panic of the overlay. -/
def getPodResizeRequirements (p : Pod) :
    Except CacheErr (List (String × Container) × Resource) :=
  match p.resizeResources with
  | none => .error .nilDeref
  | some rr =>
    let rmap := buildResizeMap rr.request
    match sumPodResource rmap p.containers Resource.zero with
    | .error e => .error e
    | .ok r => .ok (rmap, r)

/-- The per-container loop of `setupInPlaceResizeAction`: walk the incoming
pod's containers in lockstep with the cached pod's containers, and for every
container named by the resize map append a rollback record (from the incoming
container's current resources) and upsert the resize's requests and limits
into both copies.  Returns the updated incoming containers, the updated
cached containers and the rollback records. -/
def commitStep (rmap : List (String × Container)) :
    List Container → List Container →
    Except CacheErr (List Container × List Container × List ContainerResources)
  | [], cs => .ok ([], cs, [])
  | n :: ns, cs =>
    match alookup rmap n.name with
    | none =>
      match cs with
      | [] =>
        match commitStep rmap ns [] with
        | .error e => .error e
        | .ok r => .ok (n :: r.1, r.2.1, r.2.2)
      | ch :: ct =>
        match commitStep rmap ns ct with
        | .error e => .error e
        | .ok r => .ok (n :: r.1, ch :: r.2.1, r.2.2)
    | some rc =>
      let rbRec : ContainerResources := ⟨n.name, n.requests, n.limits⟩
      match ResourceList.upsertAll n.requests rc.requests with
      | .error e => .error e
      | .ok nreq =>
        match ResourceList.upsertAll n.limits rc.limits with
        | .error e => .error e
        | .ok nlim =>
          let n' : Container := { n with requests := nreq, limits := nlim }
          if rc.requests.hasEntries || rc.limits.hasEntries then
            match cs with
            | [] => .error .idxOutOfRange
            | ch :: ct =>
              match ResourceList.upsertAll ch.requests rc.requests with
              | .error e => .error e
              | .ok creq =>
                match ResourceList.upsertAll ch.limits rc.limits with
                | .error e => .error e
                | .ok clim =>
                  match commitStep rmap ns ct with
                  | .error e => .error e
                  | .ok r =>
                    .ok (n' :: r.1, { ch with requests := creq, limits := clim } :: r.2.1,
                         rbRec :: r.2.2)
          else
            match cs with
            | [] =>
              match commitStep rmap ns [] with
              | .error e => .error e
              | .ok r => .ok (n' :: r.1, r.2.1, rbRec :: r.2.2)
            | ch :: ct =>
              match commitStep rmap ns ct with
              | .error e => .error e
              | .ok r => .ok (n' :: r.1, ch :: r.2.1, rbRec :: r.2.2)

/-- `setupInPlaceResizeAction`: commit the resize on both the incoming and
the cached pod, saving rollback records and stamping action `Update` with the
incoming pod's resource version. -/
def SchedCache.setupInPlaceResizeAction (c : SchedCache) (oldPod newPod : Pod)
    (rmap : List (String × Container)) : Except CacheErr (SchedCache × Pod) :=
  let key := getPodKey oldPod
  match alookup c.podStates key with
  | none => .error .nilDeref
  | some st =>
    match commitStep rmap newPod.containers st.pod.containers with
    | .error e => .error e
    | .ok r =>
      match newPod.resizeResources with
      | none => .error .nilDeref
      | some rr =>
      let rr' : ResizeResources := { rr with
        actionVersion := newPod.resourceVersion,
        action := .update, rollback := r.2.2 }
      let np := { newPod with containers := r.1, resizeResources := some rr' }
      let st' := { st with pod := { st.pod with containers := r.2.1 } }
      .ok ({ c with podStates := ainsert c.podStates key st' }, np)

/-- The budget scan of `checkPodDisruptionBudgetOk`: skip budgets whose
parsed selector is empty or does not match the labels; the first matching
budget with no disruptions allowed decides `false`; the first selector that
fails to parse aborts with an error. -/
def pdbScan (lbls : List (String × String)) : List PDB → Except CacheErr Bool
  | [] => .ok true
  | pdb :: rest =>
    match pdb.selector with
    | some reqs =>
      if reqs = [] ∨ labelsMatch reqs lbls = false then pdbScan lbls rest
      else if pdb.disruptionsAllowed ≤ 0 then .ok false
      else pdbScan lbls rest
    | none => .error .pdbSelectorInvalid

/-- `listPDBs(labels.Everything())`: every cached budget, in map order. -/
def SchedCache.listPDBs (c : SchedCache) : List PDB := c.pdbs.map Prod.snd

/-- `checkPodDisruptionBudgetOk`. -/
def SchedCache.checkPodDisruptionBudgetOk (c : SchedCache) (p : Pod) :
    Except CacheErr Bool :=
  pdbScan p.labels c.listPDBs

/-- Replace the resize-resources record of a pod (helper for the engine's
assignments through the `ResizeResources` pointer). -/
def Pod.withRR (p : Pod) (rr : ResizeResources) : Pod :=
  { p with resizeResources := some rr }

/-- `processPodResourcesScaling`: the resize decision engine.  Returns the
cache (whose cached pod copy the engine may mutate), the mutated incoming
pod and the error, mirroring the Go receiver/pointer mutations. -/
def SchedCache.processPodResourcesScaling (c : SchedCache) (oldPod newPod : Pod) :
    SchedCache × Pod × Option CacheErr :=
  match alookup c.nodes newPod.nodeName with
  | none => (c, newPod, some .unknownNode)
  | some node =>
    let policy := if newPod.resizeResourcesPolicy = .unset then
        ResizePolicy.inPlacePreferred else newPod.resizeResourcesPolicy
    match c.processPodResizeStatus oldPod newPod with
    | .error e => (c, newPod, some e)
    | .ok (c1, np1) =>
      match np1.resizeResources with
      | none => (c1, np1, some .nilDeref)
      | some rr =>
        if rr.request.length ≠ 0 then
          if policy = .restart then
            let rr' : ResizeResources := { rr with
              request := [],
              actionVersion := np1.resourceVersion, action := .reschedule }
            (c1, np1.withRR rr', none)
          else
            match getPodResizeRequirements np1 with
            | .error e => (c1, np1, some e)
            | .ok (rmap, podResource) =>
              let np2 := np1.withRR ({ rr with request := [] })
              let allocatable := node.allocatableResource
              let nodeMilliCPU := node.requestedResource.milliCPU
              let nodeMemory := node.requestedResource.memory
              if allocatable.milliCPU > podResource.milliCPU + nodeMilliCPU ∧
                 allocatable.memory > podResource.memory + nodeMemory then
                match c1.setupInPlaceResizeAction oldPod np2 rmap with
                | .error e => (c1, np2, some e)
                | .ok (c2, np3) => (c2, np3, none)
              else
                let rr3 : ResizeResources := { rr with
                  request := [],
                  actionVersion := np2.resourceVersion }
                let np3 := np2.withRR rr3
                if policy = .inPlaceOnly then
                  let rr' : ResizeResources := { rr with
                    request := [],
                    actionVersion := np2.resourceVersion, action := .nonePerPolicy }
                  (c1, np3.withRR rr', none)
                else if np3.labels.length > 0 then
                  match c1.checkPodDisruptionBudgetOk np3 with
                  | .error e => (c1, np3, some e)
                  | .ok ok =>
                    if ¬ ok then
                      let rr' : ResizeResources := { rr with
                        request := [],
                        actionVersion := np2.resourceVersion,
                        action := .nonePerPDBViolation }
                      (c1, np3.withRR rr', none)
                    else
                      let rr' : ResizeResources := { rr with
                        request := [],
                        actionVersion := np2.resourceVersion,
                        action := .reschedule }
                      (c1, np3.withRR rr', none)
                else
                  let rr' : ResizeResources := { rr with
                    request := [],
                    actionVersion := np2.resourceVersion,
                    action := .reschedule }
                  (c1, np3.withRR rr', none)
        else (c1, np1, none)

/-- Internal `updatePod`: remove the old pod, optionally run the resize
engine (feature gate and phase conditions), account the new pod.  A fatal
fault inside the engine aborts before the re-account, as a Go panic would. -/
def SchedCache.updatePod (c : SchedCache) (vs : Bool) (oldPod newPod : Pod) :
    SchedCache × Option CacheErr :=
  match c.removePod oldPod with
  | .error e => (c, some e)
  | .ok c1 =>
    if vs = true ∧ oldPod.phase = .running ∧ newPod.phase = .running ∧
       newPod.deletionTimestamp = none ∧ newPod.resizeResources ≠ none then
      match c1.processPodResourcesScaling oldPod newPod with
      | (c2, np, e?) =>
        match e? with
        | some e => if e.isFatal then (c2, some e) else (c2.addPod np, some e)
        | none => (c2.addPod np, none)
    else (c1.addPod newPod, none)

/-- `UpdatePod` (`vs` is the VerticalScaling feature gate). -/
def SchedCache.UpdatePod (c : SchedCache) (vs : Bool) (oldPod newPod : Pod) :
    SchedCache × Option CacheErr :=
  let key := getPodKey oldPod
  match alookup c.podStates key with
  | some st =>
    if key ∉ c.assumedPods then
      if st.pod.nodeName ≠ newPod.nodeName then (c, some .corrupted)
      else c.updatePod vs oldPod newPod
    else (c, some .notAdded)
  | none => (c, some .notAdded)

/-- The reaper loop body of `cleanupAssumedPods`, folded over a snapshot of
the assumed key set.  A dangling assumed key is the source's `panic`
(`corrupted`); a nil deadline dereference is `nilDeref`; a non-fatal failure
of `expirePod` is logged and the loop continues. -/
def SchedCache.cleanupLoop (now : Int) : SchedCache → List String → Except CacheErr SchedCache
  | c, [] => .ok c
  | c, key :: rest =>
    match alookup c.podStates key with
    | none => .error .corrupted
    | some ps =>
      if ps.bindingFinished = false then SchedCache.cleanupLoop now c rest
      else
        match ps.deadline with
        | none => .error .nilDeref
        | some d =>
          if now > d then
            match c.expirePod key ps with
            | (c1, some e) =>
              if e.isFatal then .error e else SchedCache.cleanupLoop now c1 rest
            | (c1, none) => SchedCache.cleanupLoop now c1 rest
          else SchedCache.cleanupLoop now c rest

/-- `cleanupAssumedPods` (time injected, as in the source). -/
def SchedCache.cleanupAssumedPods (c : SchedCache) (now : Int) : Except CacheErr SchedCache :=
  SchedCache.cleanupLoop now c c.assumedPods

/-! ### Derived state predicates -/

/-- Invariant 1 of the spec: a key in `assumedPods` is also a key in
`podStates`. -/
def Inv1 (c : SchedCache) : Prop :=
  ∀ k, k ∈ c.assumedPods → k ∈ akeys c.podStates

/-- Well-formedness of the map representations: no duplicate keys (true of
every state built by the Go map operations). -/
def WF (c : SchedCache) : Prop :=
  (akeys c.podStates).Nodup ∧ c.assumedPods.Nodup ∧ (akeys c.nodes).Nodup

/-- Invariant 5 of the spec, as a transition property read off the pre-state:
whenever an operation deletes a NodeInfo from the node map, at the deletion
the NodeInfo's `pods` is empty and its `node` descriptor absent.  In
pre-state terms: either the descriptor was already absent and at most one pod
(the one the operation removes) was accounted, or the pods were already empty
(and the operation clears the descriptor). -/
def NodesDeletedDead (c c' : SchedCache) : Prop :=
  ∀ name ni, alookup c.nodes name = some ni → alookup c'.nodes name = none →
    (ni.node = none ∧ ni.pods.length ≤ 1) ∨ ni.pods = []

/-- The pods accounted to a node name (empty if the NodeInfo is absent). -/
def nodePodsAt (c : SchedCache) (name : String) : List Pod :=
  ((alookup c.nodes name).getD NewNodeInfo).pods

/-- How many pods with the given key a pod list holds. -/
def countKey (l : List Pod) (k : String) : Nat :=
  l.countP (fun q => getPodKey q == k)

/-! ### Association-list lemmas -/

theorem alookup_ainsert_self {α : Type} (m : List (String × α)) (k : String) (v : α) :
    alookup (ainsert m k v) k = some v := by
  induction m with
  | nil => simp [ainsert, alookup]
  | cons h t ih =>
    obtain ⟨k', v'⟩ := h
    by_cases hk : k' = k
    · subst hk; simp [ainsert, alookup]
    · simp [ainsert, alookup, hk, ih]

theorem alookup_ainsert_ne {α : Type} (m : List (String × α)) {k k' : String} (v : α)
    (h : k' ≠ k) : alookup (ainsert m k v) k' = alookup m k' := by
  have hne : k ≠ k' := fun hh => h hh.symm
  induction m with
  | nil =>
    show (if k = k' then some v else none) = none
    rw [if_neg hne]
  | cons hd t ih =>
    obtain ⟨k₀, v₀⟩ := hd
    simp only [ainsert, alookup]
    by_cases hk : k₀ = k
    · rw [if_pos hk]
      simp only [alookup]
      rw [if_neg hne, if_neg (fun hh => hne (hk ▸ hh))]
    · rw [if_neg hk]
      simp only [alookup]
      by_cases hk2 : k₀ = k'
      · rw [if_pos hk2, if_pos hk2]
      · rw [if_neg hk2, if_neg hk2, ih]

theorem alookup_aerase_ne {α : Type} (m : List (String × α)) {k k' : String}
    (h : k' ≠ k) : alookup (aerase m k) k' = alookup m k' := by
  induction m with
  | nil => rfl
  | cons hd t ih =>
    obtain ⟨k₀, v₀⟩ := hd
    simp only [aerase, alookup]
    by_cases hk : k₀ = k
    · rw [if_pos hk]
      have hne2 : k₀ ≠ k' := fun hh => h (hk ▸ hh).symm
      rw [if_neg hne2]
    · rw [if_neg hk]
      simp only [alookup]
      by_cases hk2 : k₀ = k'
      · rw [if_pos hk2, if_pos hk2]
      · rw [if_neg hk2, if_neg hk2, ih]

theorem mem_akeys_iff {α : Type} (m : List (String × α)) (k : String) :
    k ∈ akeys m ↔ (alookup m k).isSome := by
  induction m with
  | nil => simp [akeys, alookup]
  | cons hd t ih =>
    obtain ⟨k₀, v₀⟩ := hd
    by_cases hk : k₀ = k
    · subst hk; simp [akeys, alookup]
    · simp only [akeys, List.map_cons, alookup]
      rw [if_neg hk]
      simp only [List.mem_cons]
      constructor
      · intro hh
        rcases hh with hh | hh
        · exact absurd hh.symm hk
        · exact ih.1 hh
      · intro hh
        exact Or.inr (ih.2 hh)

theorem alookup_aerase_self {α : Type} (m : List (String × α)) (k : String)
    (h : (akeys m).Nodup) : alookup (aerase m k) k = none := by
  induction m with
  | nil => rfl
  | cons hd t ih =>
    obtain ⟨k₀, v₀⟩ := hd
    simp only [akeys, List.map_cons, List.nodup_cons] at h
    simp only [aerase, alookup]
    by_cases hk : k₀ = k
    · rw [if_pos hk]
      cases hl : alookup t k with
      | none => rfl
      | some w =>
        have : k ∈ akeys t := (mem_akeys_iff t k).2 (by simp [hl])
        rw [hk] at h
        exact absurd this h.1
    · rw [if_neg hk]
      simp only [alookup]
      rw [if_neg hk]
      exact ih h.2

theorem akeys_aerase_sublist {α : Type} (m : List (String × α)) (k : String) :
    (akeys (aerase m k)).Sublist (akeys m) := by
  induction m with
  | nil => simp [aerase]
  | cons hd t ih =>
    obtain ⟨k₀, v₀⟩ := hd
    simp only [aerase]
    by_cases hk : k₀ = k
    · rw [if_pos hk]
      simp only [akeys, List.map_cons]
      exact List.sublist_cons_of_sublist _ (List.Sublist.refl _)
    · rw [if_neg hk]
      simp only [akeys, List.map_cons]
      exact List.Sublist.cons₂ _ ih

theorem ainsert_mem_cases {α : Type} (m : List (String × α)) (k : String) (v : α)
    (p : String × α) (h : p ∈ ainsert m k v) : p ∈ m ∨ p.1 = k := by
  induction m with
  | nil =>
    simp only [ainsert, List.mem_singleton] at h
    right; rw [h]
  | cons hd t ih =>
    obtain ⟨k₀, v₀⟩ := hd
    by_cases hk : k₀ = k
    · rw [show ainsert ((k₀, v₀) :: t) k v = (k, v) :: t by simp [ainsert, hk]] at h
      rcases List.mem_cons.1 h with h | h
      · right; rw [h]
      · left; exact List.mem_cons_of_mem _ h
    · rw [show ainsert ((k₀, v₀) :: t) k v = (k₀, v₀) :: ainsert t k v by simp [ainsert, hk]] at h
      rcases List.mem_cons.1 h with h | h
      · left; exact List.mem_cons.2 (Or.inl h)
      · rcases ih h with h2 | h2
        · left; exact List.mem_cons_of_mem _ h2
        · right; exact h2

theorem akeys_ainsert_nodup {α : Type} (m : List (String × α)) (k : String) (v : α)
    (h : (akeys m).Nodup) : (akeys (ainsert m k v)).Nodup := by
  induction m with
  | nil => simp [ainsert, akeys]
  | cons hd t ih =>
    obtain ⟨k₀, v₀⟩ := hd
    simp only [akeys, List.map_cons, List.nodup_cons] at h
    by_cases hk : k₀ = k
    · rw [show ainsert ((k₀, v₀) :: t) k v = (k, v) :: t by simp [ainsert, hk]]
      simp only [akeys, List.map_cons, List.nodup_cons]
      rw [← hk]
      exact ⟨h.1, h.2⟩
    · rw [show ainsert ((k₀, v₀) :: t) k v = (k₀, v₀) :: ainsert t k v by simp [ainsert, hk]]
      simp only [akeys, List.map_cons, List.nodup_cons]
      constructor
      · intro hmem
        rcases List.mem_map.1 hmem with ⟨⟨ka, va⟩, hmem2, hk2⟩
        rcases ainsert_mem_cases t k v ⟨ka, va⟩ hmem2 with hin | hnew
        · exact h.1 (by rw [← hk2]; exact List.mem_map.2 ⟨⟨ka, va⟩, hin, rfl⟩)
        · exact hk (by rw [← hk2]; exact hnew)
      · exact ih h.2

theorem alookup_mem {α : Type} {m : List (String × α)} {k : String} {v : α}
    (h : alookup m k = some v) : (k, v) ∈ m := by
  induction m with
  | nil => simp [alookup] at h
  | cons hd t ih =>
    obtain ⟨k₀, v₀⟩ := hd
    simp only [alookup] at h
    by_cases hk : k₀ = k
    · rw [if_pos hk] at h
      have hv : v₀ = v := Option.some_inj.1 h
      exact List.mem_cons.2 (Or.inl (by rw [hk, hv]))
    · rw [if_neg hk] at h
      exact List.mem_cons_of_mem _ (ih h)

theorem ainsert_ainsert {α : Type} (m : List (String × α)) (k : String) (v w : α) :
    ainsert (ainsert m k v) k w = ainsert m k w := by
  induction m with
  | nil => simp [ainsert]
  | cons hd t ih =>
    obtain ⟨k₀, v₀⟩ := hd
    by_cases hk : k₀ = k
    · simp [ainsert, hk]
    · simp [ainsert, hk, ih]

theorem mem_serase {l : List String} {k a : String} (h : a ∈ serase l k) : a ∈ l := by
  induction l with
  | nil => simp [serase] at h
  | cons x t ih =>
    simp only [serase] at h
    by_cases hk : x = k
    · rw [if_pos hk] at h
      exact List.mem_cons_of_mem _ h
    · rw [if_neg hk] at h
      rcases List.mem_cons.1 h with h | h
      · exact List.mem_cons.2 (Or.inl h)
      · exact List.mem_cons_of_mem _ (ih h)

theorem not_mem_serase_self {l : List String} (k : String) (h : l.Nodup) :
    k ∉ serase l k := by
  induction l with
  | nil => simp [serase]
  | cons x t ih =>
    simp only [List.nodup_cons] at h
    simp only [serase]
    by_cases hk : x = k
    · rw [if_pos hk]
      rw [hk] at h
      exact h.1
    · rw [if_neg hk]
      intro hmem
      rcases List.mem_cons.1 hmem with hh | hh
      · exact hk hh.symm
      · exact ih h.2 hh

theorem mem_serase_of_ne {l : List String} {k a : String} (hne : a ≠ k) (h : a ∈ l) :
    a ∈ serase l k := by
  induction l with
  | nil => simp at h
  | cons x t ih =>
    simp only [serase]
    by_cases hk : x = k
    · rw [if_pos hk]
      rcases List.mem_cons.1 h with hh | hh
      · exact absurd (hh.trans hk) hne
      · exact hh
    · rw [if_neg hk]
      rcases List.mem_cons.1 h with hh | hh
      · exact List.mem_cons.2 (Or.inl hh)
      · exact List.mem_cons_of_mem _ (ih hh)

theorem serase_sublist (l : List String) (k : String) : (serase l k).Sublist l := by
  induction l with
  | nil => simp [serase]
  | cons x t ih =>
    simp only [serase]
    by_cases hk : x = k
    · rw [if_pos hk]
      exact List.sublist_cons_of_sublist _ (List.Sublist.refl _)
    · rw [if_neg hk]
      exact List.Sublist.cons₂ _ ih

theorem mem_sinsert_iff (l : List String) (k a : String) :
    a ∈ sinsert l k ↔ a ∈ l ∨ a = k := by
  by_cases hk : k ∈ l
  · simp only [sinsert, if_pos hk]
    constructor
    · exact Or.inl
    · intro h
      rcases h with h | h
      · exact h
      · rw [h]; exact hk
  · simp [sinsert, if_neg hk, List.mem_append]

theorem sinsert_nodup (l : List String) (k : String) (h : l.Nodup) :
    (sinsert l k).Nodup := by
  by_cases hk : k ∈ l
  · simpa [sinsert, if_pos hk]
  · simp only [sinsert, if_neg hk]
    rw [List.nodup_append]
    refine ⟨h, List.nodup_singleton k, ?_⟩
    intro a ha hamem
    rw [List.mem_singleton] at hamem
    subst hamem
    exact hk ha

theorem countKey_append (l₁ l₂ : List Pod) (k : String) :
    countKey (l₁ ++ l₂) k = countKey l₁ k + countKey l₂ k := by
  simp [countKey, List.countP_append]

theorem countKey_eraseKey_self (l : List Pod) (kk : String)
    (h : l.any (fun q => getPodKey q == kk) = true) :
    countKey (l.eraseP (fun q => getPodKey q == kk)) kk + 1 = countKey l kk := by
  induction l with
  | nil => simp at h
  | cons p t ih =>
    by_cases hp : (getPodKey p == kk) = true
    · rw [show List.eraseP (fun q => getPodKey q == kk) (p :: t) = t from
        List.eraseP_cons_of_pos hp]
      simp only [countKey, List.countP_cons, hp, if_true]
    · rw [show List.eraseP (fun q => getPodKey q == kk) (p :: t)
          = p :: List.eraseP (fun q => getPodKey q == kk) t from
        List.eraseP_cons_of_neg (by simp [hp])]
      have ht : t.any (fun q => getPodKey q == kk) = true := by
        simp only [List.any_cons, hp, Bool.false_or] at h
        exact h
      simp only [countKey, List.countP_cons, hp, Bool.false_eq_true, if_false]
      have := ih ht
      simp only [countKey] at this
      omega

theorem countKey_eraseKey_other (l : List Pod) (kk k : String) (hne : kk ≠ k) :
    countKey (l.eraseP (fun q => getPodKey q == kk)) k = countKey l k := by
  induction l with
  | nil => simp
  | cons p t ih =>
    by_cases hp : (getPodKey p == kk) = true
    · rw [show List.eraseP (fun q => getPodKey q == kk) (p :: t) = t from
        List.eraseP_cons_of_pos hp]
      have hpk : (getPodKey p == k) = false := by
        rw [beq_iff_eq] at hp
        rw [hp]
        exact beq_false_of_ne hne
      simp only [countKey, List.countP_cons, hpk, Bool.false_eq_true, if_false]
      omega
    · rw [show List.eraseP (fun q => getPodKey q == kk) (p :: t)
          = p :: List.eraseP (fun q => getPodKey q == kk) t from
        List.eraseP_cons_of_neg (by simp [hp])]
      simp only [countKey, List.countP_cons]
      have := ih
      simp only [countKey] at this
      omega

theorem countKey_pos_of_any (l : List Pod) (kk : String)
    (h : l.any (fun q => getPodKey q == kk) = true) : 0 < countKey l kk := by
  induction l with
  | nil => simp at h
  | cons p t ih =>
    by_cases hp : (getPodKey p == kk) = true
    · simp only [countKey, List.countP_cons, hp, if_true]
      omega
    · simp only [List.any_cons, hp, Bool.false_or] at h
      simp only [countKey, List.countP_cons, hp, Bool.false_eq_true, if_false]
      have := ih h
      simp only [countKey] at this
      omega

theorem any_of_countKey_pos (l : List Pod) (kk : String)
    (h : 0 < countKey l kk) : l.any (fun q => getPodKey q == kk) = true := by
  induction l with
  | nil => simp [countKey] at h
  | cons p t ih =>
    by_cases hp : (getPodKey p == kk) = true
    · simp [List.any_cons, hp]
    · simp only [countKey, List.countP_cons, hp, Bool.false_eq_true, if_false] at h
      simp only [List.any_cons, hp, Bool.false_or]
      exact ih (by simp only [countKey]; omega)

/-! ### Concrete fixtures used by witnesses and counterexamples -/

/-- An empty cache with a 10-unit TTL. -/
def cEmpty : SchedCache := { ttl := 10, assumedPods := [], podStates := [], nodes := [], pdbs := [] }

def wPodA : Pod :=
  { ns := "d", name := "a", nodeName := "n1", resourceVersion := "v1",
    labels := [], containers := [⟨"c1", .entries (some 500) (some 1024), .entries none none⟩],
    phase := .running, deletionTimestamp := none, conditions := [],
    resizeResourcesPolicy := .unset, resizeResources := none }

def wNode1 : Node := ⟨"n1", ⟨2000, 4096⟩⟩

/-! ### C10 -/

/-- C10: `RemoveNode` requires that a NodeInfo for the name already exists:
for any untracked node name the lookup result is used without a presence
check and the operation faults on a nil `NodeInfo` dereference instead of
returning an error, while `AddNode` and `UpdateNode` create a fresh NodeInfo
for a missing name and succeed. -/
theorem RemoveNode_faults_on_untracked_node (c : SchedCache) (n m : Node)
    (h : alookup c.nodes n.name = none) :
    c.RemoveNode n = (c, some CacheErr.nilDeref) ∧
    (c.AddNode n).2 = none ∧
    alookup (c.AddNode n).1.nodes n.name = some (NewNodeInfo.SetNode n) ∧
    ((c.UpdateNode m n).2 = none ∧
     alookup (c.UpdateNode m n).1.nodes n.name = some (NewNodeInfo.SetNode n)) := by
  refine ⟨?_, ?_, ?_, ?_, ?_⟩
  · simp [SchedCache.RemoveNode, h]
  · simp [SchedCache.AddNode]
  · simp [SchedCache.AddNode, h, alookup_ainsert_self]
  · simp [SchedCache.UpdateNode]
  · simp [SchedCache.UpdateNode, h, alookup_ainsert_self]

/-- Witness for C10 at a concrete untracked node. -/
theorem RemoveNode_faults_on_untracked_node_witness :
    alookup cEmpty.nodes wNode1.name = none ∧
    cEmpty.RemoveNode wNode1 = (cEmpty, some CacheErr.nilDeref) := by
  refine ⟨by decide, ?_⟩
  exact (RemoveNode_faults_on_untracked_node cEmpty wNode1 wNode1 (by decide)).1

/-! ### C3 -/

/-- C3: `AssumePod` fails with AlreadyPresent exactly when the key is already
in `podStates`, leaving the cache unchanged in that case; otherwise it
records a WorkloadState with null deadline and unfinished binding, inserts
the key into `assumedPods`, and appends the pod to the pods and resource
accounting of the NodeInfo named by the pod (created if absent). -/
theorem AssumePod_spec (c : SchedCache) (p : Pod) :
    ((c.AssumePod p).2 = some CacheErr.alreadyPresent ↔
      (alookup c.podStates (getPodKey p)).isSome) ∧
    ((alookup c.podStates (getPodKey p)).isSome →
      c.AssumePod p = (c, some CacheErr.alreadyPresent)) ∧
    (alookup c.podStates (getPodKey p) = none →
      (c.AssumePod p).2 = none ∧
      alookup (c.AssumePod p).1.podStates (getPodKey p) = some ⟨p, none, false⟩ ∧
      getPodKey p ∈ (c.AssumePod p).1.assumedPods ∧
      nodePodsAt (c.AssumePod p).1 p.nodeName = nodePodsAt c p.nodeName ++ [p] ∧
      ((alookup (c.AssumePod p).1.nodes p.nodeName).getD NewNodeInfo).requestedResource
        = (((alookup c.nodes p.nodeName).getD NewNodeInfo)).requestedResource.addR
            (podRequest p)) := by
  by_cases h : (alookup c.podStates (getPodKey p)).isSome
  · refine ⟨?_, ?_, ?_⟩
    · simp [SchedCache.AssumePod, h]
    · intro
      simp [SchedCache.AssumePod, h]
    · intro h2
      rw [h2] at h
      simp at h
  · have h2 : alookup c.podStates (getPodKey p) = none := by
      cases hl : alookup c.podStates (getPodKey p) with
      | none => rfl
      | some w => rw [hl] at h; simp at h
    refine ⟨?_, ?_, ?_⟩
    · simp [SchedCache.AssumePod, h]
    · intro h3
      rw [h2] at h3
      simp at h3
    · intro
      refine ⟨?_, ?_, ?_, ?_, ?_⟩
      · simp [SchedCache.AssumePod, h]
      · simp [SchedCache.AssumePod, h, SchedCache.addPod, alookup_ainsert_self]
      · simp [SchedCache.AssumePod, h, SchedCache.addPod, mem_sinsert_iff]
      · simp [SchedCache.AssumePod, h, SchedCache.addPod, nodePodsAt,
              alookup_ainsert_self, NodeInfo.AddPod]
      · simp [SchedCache.AssumePod, h, SchedCache.addPod,
              alookup_ainsert_self, NodeInfo.AddPod]

/-- Witness for C3 on a fresh cache. -/
theorem AssumePod_spec_witness :
    alookup cEmpty.podStates (getPodKey wPodA) = none ∧
    ((cEmpty.AssumePod wPodA).2 = none ∧
      alookup (cEmpty.AssumePod wPodA).1.podStates (getPodKey wPodA)
        = some ⟨wPodA, none, false⟩ ∧
      getPodKey wPodA ∈ (cEmpty.AssumePod wPodA).1.assumedPods ∧
      nodePodsAt (cEmpty.AssumePod wPodA).1 wPodA.nodeName
        = nodePodsAt cEmpty wPodA.nodeName ++ [wPodA] ∧
      ((alookup (cEmpty.AssumePod wPodA).1.nodes wPodA.nodeName).getD
          NewNodeInfo).requestedResource
        = (((alookup cEmpty.nodes wPodA.nodeName).getD
            NewNodeInfo)).requestedResource.addR (podRequest wPodA)) :=
  ⟨by decide, (AssumePod_spec cEmpty wPodA).2.2 (by decide)⟩

/-! ### C5 -/

/-- The armed state written by `finishBinding`: same pod, `bindingFinished`
set, deadline at the given instant. -/
def fbUpdate (c : SchedCache) (k : String) (st : PodState) (d : Int) : SchedCache :=
  { c with podStates := ainsert c.podStates k ⟨st.pod, some d, true⟩ }

/-- C5: `finishBinding` never fails on cache state; when the key is present
and still assumed it sets `bindingFinished` and arms `deadline = now + ttl`,
otherwise it leaves the entire cache unchanged; repeated calls are
idempotent up to the recorded time. -/
theorem finishBinding_spec (c : SchedCache) (p : Pod) (now t2 : Int) :
    ((c.finishBinding p now).2 = none) ∧
    (∀ st, alookup c.podStates (getPodKey p) = some st → getPodKey p ∈ c.assumedPods →
      (c.finishBinding p now).1 = fbUpdate c (getPodKey p) st (now + c.ttl)) ∧
    ((alookup c.podStates (getPodKey p) = none ∨ getPodKey p ∉ c.assumedPods) →
      (c.finishBinding p now).1 = c) ∧
    (((c.finishBinding p now).1.finishBinding p t2).1 = (c.finishBinding p t2).1) := by
  cases hl : alookup c.podStates (getPodKey p) with
  | none =>
    refine ⟨?_, ?_, ?_, ?_⟩
    · simp [SchedCache.finishBinding, hl]
    · intro st hst
      simp at hst
    · intro
      simp [SchedCache.finishBinding, hl]
    · have h1 : (c.finishBinding p now).1 = c := by simp [SchedCache.finishBinding, hl]
      rw [h1]
  | some st =>
    by_cases ha : getPodKey p ∈ c.assumedPods
    · refine ⟨?_, ?_, ?_, ?_⟩
      · simp [SchedCache.finishBinding, hl, ha]
      · intro st2 hst2
        have heq : st = st2 := Option.some_inj.1 hst2
        subst heq
        intro
        simp [SchedCache.finishBinding, hl, ha, fbUpdate]
      · intro hor
        rcases hor with hor | hor
        · simp at hor
        · exact absurd ha hor
      · have h1 : (c.finishBinding p now).1 = fbUpdate c (getPodKey p) st (now + c.ttl) := by
          simp [SchedCache.finishBinding, hl, ha, fbUpdate]
        rw [h1]
        have h2 : alookup (ainsert c.podStates (getPodKey p)
              (⟨st.pod, some (now + c.ttl), true⟩ : PodState)) (getPodKey p)
            = some ⟨st.pod, some (now + c.ttl), true⟩ := alookup_ainsert_self _ _ _
        simp [SchedCache.finishBinding, fbUpdate, h2, hl, ha, ainsert_ainsert]
    · refine ⟨?_, ?_, ?_, ?_⟩
      · simp [SchedCache.finishBinding, hl, ha]
      · intro st2 hst2 hmem
        exact absurd hmem ha
      · intro
        simp [SchedCache.finishBinding, hl, ha]
      · have h1 : (c.finishBinding p now).1 = c := by simp [SchedCache.finishBinding, hl, ha]
        rw [h1]

/-- Witness for C5 with an assumed pod. -/
theorem finishBinding_spec_witness :
    (alookup (cEmpty.AssumePod wPodA).1.podStates (getPodKey wPodA)
      = some ⟨wPodA, none, false⟩) ∧
    (getPodKey wPodA ∈ (cEmpty.AssumePod wPodA).1.assumedPods) ∧
    (((cEmpty.AssumePod wPodA).1.finishBinding wPodA 0).1
      = fbUpdate (cEmpty.AssumePod wPodA).1 (getPodKey wPodA) ⟨wPodA, none, false⟩
          (0 + (cEmpty.AssumePod wPodA).1.ttl)) :=
  ⟨by decide, by decide,
    (finishBinding_spec (cEmpty.AssumePod wPodA).1 wPodA 0 0).2.1
      ⟨wPodA, none, false⟩ (by decide) (by decide)⟩

/-! ### Characterization of the internal `removePod` -/

/-- The NodeInfo left at the pod's node by a successful removal. -/
def removedNI (ni : NodeInfo) (p : Pod) : NodeInfo :=
  ⟨ni.node, ni.pods.eraseP (fun q => getPodKey q == getPodKey p),
   ni.requestedResource.subR (podRequest p),
   ni.nonZeroRequest.subR (podNonZeroRequest p),
   ni.allocatableResource, ni.generation + 1⟩

theorem removePod_ok_spec (c : SchedCache) (p : Pod) (ni : NodeInfo)
    (hn : alookup c.nodes p.nodeName = some ni)
    (hin : ni.pods.any (fun q => getPodKey q == getPodKey p) = true)
    (hnn : (akeys c.nodes).Nodup) :
    ∃ c', c.removePod p = .ok c' ∧
      c'.ttl = c.ttl ∧ c'.assumedPods = c.assumedPods ∧ c'.podStates = c.podStates ∧
      c'.pdbs = c.pdbs ∧
      (∀ name, name ≠ p.nodeName → alookup c'.nodes name = alookup c.nodes name) ∧
      (∀ k, countKey (nodePodsAt c' p.nodeName) k = countKey (removedNI ni p).pods k) ∧
      (akeys c'.nodes).Nodup ∧
      ((alookup c'.nodes p.nodeName = none ∧ (removedNI ni p).pods = [] ∧ ni.node = none) ∨
        alookup c'.nodes p.nodeName = some (removedNI ni p)) := by
  have hrp : ni.RemovePod p = .ok (removedNI ni p) := by
    simp [NodeInfo.RemovePod, hin, removedNI]
  by_cases hdead : (removedNI ni p).pods = [] ∧ (removedNI ni p).node = none
  · have hrm : c.removePod p = .ok { c with nodes := aerase c.nodes p.nodeName } := by
      simp [SchedCache.removePod, hn, hrp, hdead.1, hdead.2]
    refine ⟨_, hrm, rfl, rfl, rfl, rfl, ?_, ?_, ?_, ?_⟩
    · intro name hne
      exact alookup_aerase_ne c.nodes hne
    · intro k
      have hnone : alookup (aerase c.nodes p.nodeName) p.nodeName = none :=
        alookup_aerase_self c.nodes p.nodeName hnn
      simp [nodePodsAt, hnone, hdead.1, NewNodeInfo]
    · exact ((akeys_aerase_sublist c.nodes p.nodeName).nodup hnn)
    · left
      refine ⟨alookup_aerase_self c.nodes p.nodeName hnn, hdead.1, ?_⟩
      have : (removedNI ni p).node = ni.node := rfl
      rw [← this, hdead.2]
  · have hrm : c.removePod p
        = .ok { c with nodes := ainsert c.nodes p.nodeName (removedNI ni p) } := by
      simp only [SchedCache.removePod, hn, hrp]
      rw [if_neg (fun hc => hdead hc)]
    refine ⟨_, hrm, rfl, rfl, rfl, rfl, ?_, ?_, ?_, ?_⟩
    · intro name hne
      exact alookup_ainsert_ne c.nodes _ hne
    · intro k
      simp [nodePodsAt, alookup_ainsert_self]
    · exact akeys_ainsert_nodup c.nodes _ _ hnn
    · right
      exact alookup_ainsert_self _ _ _

/-! ### C8 -/

/-- A cache tracking `wPodA` as confirmed (not assumed) on node n1. -/
def cConfirmedA : SchedCache :=
  { ttl := 10, assumedPods := [],
    podStates := [(getPodKey wPodA, ⟨wPodA, none, false⟩)],
    nodes := [("n1", NewNodeInfo.AddPod wPodA)], pdbs := [] }

/-- `wPodA` resubmitted with a different node name. -/
def wPodA_n2 : Pod := { wPodA with nodeName := "n2" }

/-- Counterexample to C8 as stated: for a key that is present but *not*
assumed, with a mismatched node name, `ForgetPod` returns NodeMismatch — not
the NotAssumed error the claim assigns to every present-but-not-assumed
key (the mismatch check takes precedence). -/
theorem ForgetPod_claim_counterexample :
    (alookup cConfirmedA.podStates (getPodKey wPodA_n2)).isSome ∧
    getPodKey wPodA_n2 ∉ cConfirmedA.assumedPods ∧
    cConfirmedA.ForgetPod wPodA_n2 = (cConfirmedA, some CacheErr.nodeMismatch) ∧
    CacheErr.nodeMismatch ≠ CacheErr.notAssumed := by
  refine ⟨by decide, by decide, by decide, by decide⟩

/-- C8 (amended): `ForgetPod` returns NodeMismatch whenever the key is
present and the submitted node name differs from the cached one (this check
precedes the assumed check); it returns NotAssumed when the key is unknown,
or present with matching node name but not assumed; both failures leave the
cache unchanged.  When the key is present, assumed and node-matching, it
removes the pod from the node's accounting and deletes the key from both
`assumedPods` and `podStates`. -/
theorem ForgetPod_spec (c : SchedCache) (p : Pod) :
    (∀ st, alookup c.podStates (getPodKey p) = some st → st.pod.nodeName ≠ p.nodeName →
      c.ForgetPod p = (c, some CacheErr.nodeMismatch)) ∧
    (alookup c.podStates (getPodKey p) = none →
      c.ForgetPod p = (c, some CacheErr.notAssumed)) ∧
    (∀ st, alookup c.podStates (getPodKey p) = some st → st.pod.nodeName = p.nodeName →
      getPodKey p ∉ c.assumedPods → c.ForgetPod p = (c, some CacheErr.notAssumed)) ∧
    (∀ st ni, alookup c.podStates (getPodKey p) = some st → st.pod.nodeName = p.nodeName →
      getPodKey p ∈ c.assumedPods → WF c →
      alookup c.nodes p.nodeName = some ni →
      ni.pods.any (fun q => getPodKey q == getPodKey p) = true →
      ((c.ForgetPod p).2 = none ∧
       getPodKey p ∉ (c.ForgetPod p).1.assumedPods ∧
       alookup (c.ForgetPod p).1.podStates (getPodKey p) = none ∧
       countKey (nodePodsAt (c.ForgetPod p).1 p.nodeName) (getPodKey p) + 1
         = countKey (nodePodsAt c p.nodeName) (getPodKey p))) := by
  refine ⟨?_, ?_, ?_, ?_⟩
  · intro st hst hne
    simp [SchedCache.ForgetPod, hst, hne]
  · intro hst
    simp [SchedCache.ForgetPod, hst]
  · intro st hst heq hnas
    simp [SchedCache.ForgetPod, hst, heq, hnas]
  · intro st ni hst heq has hwf hn hany
    obtain ⟨c', hrm, httl, hass, hps, hpdb, hother, hcount, hnodup, hdisj⟩ :=
      removePod_ok_spec c p ni hn hany hwf.2.2
    have hfg : c.ForgetPod p = ({ c' with
        assumedPods := serase c'.assumedPods (getPodKey p),
        podStates := aerase c'.podStates (getPodKey p) }, none) := by
      simp [SchedCache.ForgetPod, hst, heq, has, hrm]
    refine ⟨by simp [hfg], ?_, ?_, ?_⟩
    · rw [hfg]
      simp only [hass]
      exact not_mem_serase_self _ hwf.2.1
    · rw [hfg]
      simp only [hps]
      exact alookup_aerase_self _ _ hwf.1
    · rw [hfg]
      have h1 : nodePodsAt { c' with
          assumedPods := serase c'.assumedPods (getPodKey p),
          podStates := aerase c'.podStates (getPodKey p) } p.nodeName
          = nodePodsAt c' p.nodeName := rfl
      rw [h1]
      have h2 := hcount (getPodKey p)
      rw [h2]
      have h3 : nodePodsAt c p.nodeName = ni.pods := by simp [nodePodsAt, hn]
      rw [h3]
      exact countKey_eraseKey_self ni.pods (getPodKey p) hany

/-- Witness for C8's amended success and failure cases at concrete inputs. -/
theorem ForgetPod_spec_witness :
    (alookup cConfirmedA.podStates (getPodKey wPodA_n2) = some ⟨wPodA, none, false⟩ ∧
     cConfirmedA.ForgetPod wPodA_n2 = (cConfirmedA, some CacheErr.nodeMismatch)) ∧
    (((cEmpty.AssumePod wPodA).1.ForgetPod wPodA).2 = none ∧
     getPodKey wPodA ∉ (((cEmpty.AssumePod wPodA).1.ForgetPod wPodA)).1.assumedPods ∧
     alookup (((cEmpty.AssumePod wPodA).1.ForgetPod wPodA)).1.podStates (getPodKey wPodA)
       = none ∧
     countKey (nodePodsAt (((cEmpty.AssumePod wPodA).1.ForgetPod wPodA)).1 wPodA.nodeName)
         (getPodKey wPodA) + 1
       = countKey (nodePodsAt (cEmpty.AssumePod wPodA).1 wPodA.nodeName) (getPodKey wPodA)) := by
  constructor
  · exact ⟨by decide,
      (ForgetPod_spec cConfirmedA wPodA_n2).1 ⟨wPodA, none, false⟩ (by decide) (by decide)⟩
  · exact (ForgetPod_spec (cEmpty.AssumePod wPodA).1 wPodA).2.2.2
      ⟨wPodA, none, false⟩ (NewNodeInfo.AddPod wPodA) (by decide) (by decide) (by decide)
      (by constructor <;> decide) (by decide) (by decide)

/-! ### C1 -/

theorem nodePodsAt_addPod_self (c : SchedCache) (p : Pod) :
    nodePodsAt (c.addPod p) p.nodeName = nodePodsAt c p.nodeName ++ [p] := by
  simp [SchedCache.addPod, nodePodsAt, alookup_ainsert_self, NodeInfo.AddPod]

theorem nodePodsAt_addPod_other (c : SchedCache) (p : Pod) (name : String)
    (h : name ≠ p.nodeName) :
    nodePodsAt (c.addPod p) name = nodePodsAt c name := by
  simp [SchedCache.addPod, nodePodsAt, alookup_ainsert_ne _ _ h]

theorem countKey_single_self (p : Pod) (k : String) (h : getPodKey p = k) :
    countKey [p] k = 1 := by
  simp [countKey, List.countP_cons, h]

/-- C1: for a workload whose key is present in `podStates` and in
`assumedPods`, a confirming `AddPod` succeeds and confirms it: the key
leaves `assumedPods`, the deadline is cleared, the cached pod is replaced by
the confirming object, and (moving the accounting from the assumed node to
the confirming node when they differ) the workload ends up accounted exactly
once, on the node named by the confirming `AddPod`.  The accounting
hypotheses state spec invariant 2 for this key: it is accounted exactly once,
on its assumed node. -/
theorem AddPod_confirms_assumed (c : SchedCache) (w' : Pod) (st : PodState)
    (hst : alookup c.podStates (getPodKey w') = some st)
    (has : getPodKey w' ∈ c.assumedPods)
    (hkey : getPodKey st.pod = getPodKey w')
    (hwf : WF c)
    (hcnt1 : countKey (nodePodsAt c st.pod.nodeName) (getPodKey w') = 1)
    (hcnt0 : ∀ e ∈ c.nodes, e.1 ≠ st.pod.nodeName →
      countKey e.2.pods (getPodKey w') = 0) :
    ((c.AddPod w').2 = none ∧
     getPodKey w' ∉ (c.AddPod w').1.assumedPods ∧
     alookup (c.AddPod w').1.podStates (getPodKey w')
       = some ⟨w', none, st.bindingFinished⟩ ∧
     (∀ name, countKey (nodePodsAt (c.AddPod w').1 name) (getPodKey w')
        = (if name = w'.nodeName then 1 else 0))) := by
  have hcnt : ∀ name, countKey (nodePodsAt c name) (getPodKey w')
      = (if name = st.pod.nodeName then 1 else 0) := by
    intro name
    by_cases hname : name = st.pod.nodeName
    · rw [if_pos hname, hname]
      exact hcnt1
    · rw [if_neg hname]
      cases hl : alookup c.nodes name with
      | none => simp [nodePodsAt, hl, NewNodeInfo, countKey]
      | some ni =>
        have : nodePodsAt c name = ni.pods := by simp [nodePodsAt, hl]
        rw [this]
        exact hcnt0 (name, ni) (alookup_mem hl) hname
  by_cases heq : st.pod.nodeName = w'.nodeName
  · -- confirming node equals the assumed node: no accounting move
    have hfin : c.AddPod w' = ({ c with
        assumedPods := serase c.assumedPods (getPodKey w'),
        podStates := ainsert c.podStates (getPodKey w')
          ⟨w', none, st.bindingFinished⟩ }, none) := by
      simp only [SchedCache.AddPod, hst]
      rw [if_pos has, if_neg (by simp [heq])]
    rw [hfin]
    refine ⟨rfl, not_mem_serase_self _ hwf.2.1, alookup_ainsert_self _ _ _, ?_⟩
    intro name
    have : nodePodsAt ({ c with
        assumedPods := serase c.assumedPods (getPodKey w'),
        podStates := ainsert c.podStates (getPodKey w')
          (⟨w', none, st.bindingFinished⟩ : PodState) }, (none : Option CacheErr)).1 name
        = nodePodsAt c name := rfl
    rw [this, hcnt name, heq]
  · -- the confirming node differs: remove from the assumed node, add to the new
    have hn : ∃ ni, alookup c.nodes st.pod.nodeName = some ni := by
      cases hl : alookup c.nodes st.pod.nodeName with
      | none =>
        rw [show nodePodsAt c st.pod.nodeName = [] by simp [nodePodsAt, hl, NewNodeInfo]]
          at hcnt1
        simp [countKey] at hcnt1
      | some ni => exact ⟨ni, rfl⟩
    obtain ⟨ni, hn⟩ := hn
    have hpods : nodePodsAt c st.pod.nodeName = ni.pods := by simp [nodePodsAt, hn]
    have hany : ni.pods.any (fun q => getPodKey q == getPodKey st.pod) = true := by
      rw [hkey]
      apply any_of_countKey_pos
      rw [← hpods, hcnt1]
      omega
    obtain ⟨c', hrm, httl, hass, hps, hpdb, hother, hcount, hnodup, hdisj⟩ :=
      removePod_ok_spec c st.pod ni hn hany hwf.2.2
    have hrmne : c.removePod st.pod ≠ Except.error CacheErr.nilDeref := by
      rw [hrm]; exact fun h => Except.noConfusion h
    have hfin : c.AddPod w' = ({ c'.addPod w' with
        assumedPods := serase (c'.addPod w').assumedPods (getPodKey w'),
        podStates := ainsert (c'.addPod w').podStates (getPodKey w')
          ⟨w', none, st.bindingFinished⟩ }, none) := by
      simp only [SchedCache.AddPod, hst]
      rw [if_pos has, if_pos heq, hrm]
    rw [hfin]
    have haddass : (c'.addPod w').assumedPods = c.assumedPods := by
      simp [SchedCache.addPod, hass]
    have haddps : (c'.addPod w').podStates = c.podStates := by
      simp [SchedCache.addPod, hps]
    refine ⟨rfl, ?_, alookup_ainsert_self _ _ _, ?_⟩
    · rw [haddass]
      exact not_mem_serase_self _ hwf.2.1
    · intro name
      have hnp : nodePodsAt ({ c'.addPod w' with
          assumedPods := serase (c'.addPod w').assumedPods (getPodKey w'),
          podStates := ainsert (c'.addPod w').podStates (getPodKey w')
            (⟨w', none, st.bindingFinished⟩ : PodState) }, (none : Option CacheErr)).1 name
          = nodePodsAt (c'.addPod w') name := rfl
      rw [hnp]
      by_cases hw : name = w'.nodeName
      · rw [if_pos hw, hw, nodePodsAt_addPod_self, countKey_append,
            countKey_single_self _ _ rfl]
        have hnodeprev : nodePodsAt c' w'.nodeName = nodePodsAt c w'.nodeName := by
          simp [nodePodsAt, hother w'.nodeName (fun hh => heq hh.symm)]
        rw [hnodeprev, hcnt w'.nodeName, if_neg (fun hh => heq hh.symm)]
      · rw [if_neg hw, nodePodsAt_addPod_other _ _ _ hw]
        by_cases hsn : name = st.pod.nodeName
        · have hc : countKey (nodePodsAt c' name) (getPodKey w')
              = countKey ((removedNI ni st.pod).pods) (getPodKey w') := by
            rw [hsn]; exact hcount _
          rw [hc]
          have h2 : (removedNI ni st.pod).pods
              = ni.pods.eraseP (fun q => getPodKey q == getPodKey w') := by
            simp [removedNI, hkey]
          rw [h2]
          have hany2 : ni.pods.any (fun q => getPodKey q == getPodKey w') = true := by
            rw [← hkey]; exact hany
          have h1 : countKey ni.pods (getPodKey w') = 1 := by rw [← hpods]; exact hcnt1
          have h4 := countKey_eraseKey_self ni.pods (getPodKey w') hany2
          omega
        · have : alookup c'.nodes name = alookup c.nodes name := hother name hsn
          have h3 : nodePodsAt c' name = nodePodsAt c name := by simp [nodePodsAt, this]
          rw [h3, hcnt name, if_neg hsn]

/-- Witness for C1: assume on n1, confirming AddPod names n2. -/
theorem AddPod_confirms_assumed_witness :
    (alookup (cEmpty.AssumePod wPodA).1.podStates (getPodKey wPodA_n2)
      = some ⟨wPodA, none, false⟩) ∧
    (getPodKey wPodA_n2 ∈ (cEmpty.AssumePod wPodA).1.assumedPods) ∧
    (((cEmpty.AssumePod wPodA).1.AddPod wPodA_n2).2 = none ∧
     getPodKey wPodA_n2 ∉ ((cEmpty.AssumePod wPodA).1.AddPod wPodA_n2).1.assumedPods ∧
     alookup ((cEmpty.AssumePod wPodA).1.AddPod wPodA_n2).1.podStates (getPodKey wPodA_n2)
       = some ⟨wPodA_n2, none, false⟩ ∧
     (∀ name, countKey (nodePodsAt ((cEmpty.AssumePod wPodA).1.AddPod wPodA_n2).1 name)
          (getPodKey wPodA_n2)
        = (if name = wPodA_n2.nodeName then 1 else 0))) :=
  ⟨by decide, by decide,
    AddPod_confirms_assumed (cEmpty.AssumePod wPodA).1 wPodA_n2 ⟨wPodA, none, false⟩
      (by decide) (by decide) (by decide) (by refine ⟨?_, ?_, ?_⟩ <;> decide)
      (by decide) (by decide)⟩

/-! ### C2 helper lemmas -/

theorem mem_akeys_ainsert {α : Type} (m : List (String × α)) (k a : String) (v : α)
    (h : a ∈ akeys m) : a ∈ akeys (ainsert m k v) := by
  rw [mem_akeys_iff] at h ⊢
  by_cases he : a = k
  · subst he; simp [alookup_ainsert_self]
  · rw [alookup_ainsert_ne _ _ he]; exact h

theorem mem_akeys_aerase_of_ne {α : Type} (m : List (String × α)) (k a : String)
    (hne : a ≠ k) (h : a ∈ akeys m) : a ∈ akeys (aerase m k) := by
  rw [mem_akeys_iff] at h ⊢
  rw [alookup_aerase_ne _ hne]
  exact h

theorem ndd_of_no_delete (c c' : SchedCache)
    (h : ∀ nm, (alookup c.nodes nm).isSome → (alookup c'.nodes nm).isSome) :
    NodesDeletedDead c c' := by
  intro nm ni h1 h2
  exact absurd (h nm (by simp [h1])) (by simp [h2])

theorem ndd_comp_no_delete (c c1 c2 : SchedCache)
    (h1 : NodesDeletedDead c c1)
    (h2 : ∀ nm, (alookup c1.nodes nm).isSome → (alookup c2.nodes nm).isSome) :
    NodesDeletedDead c c2 := by
  intro nm ni ha hb
  apply h1 nm ni ha
  cases hl : alookup c1.nodes nm with
  | none => rfl
  | some x => exact absurd (h2 nm (by simp [hl])) (by simp [hb])

theorem ndd_nodes_eq (c c1 c2 : SchedCache) (h1 : NodesDeletedDead c c1)
    (h : c2.nodes = c1.nodes) : NodesDeletedDead c c2 := by
  intro nm ni ha hb
  rw [h] at hb
  exact h1 nm ni ha hb

theorem addPod_nodes_isSome (c : SchedCache) (p : Pod) (nm : String)
    (h : (alookup c.nodes nm).isSome) : (alookup (c.addPod p).nodes nm).isSome := by
  by_cases he : nm = p.nodeName
  · subst he; simp [SchedCache.addPod, alookup_ainsert_self]
  · simp only [SchedCache.addPod]
    rw [alookup_ainsert_ne _ _ he]
    exact h

theorem eraseP_nil_length {α : Type} (l : List α) (p : α → Bool)
    (h : l.eraseP p = []) : l.length ≤ 1 := by
  cases l with
  | nil => simp
  | cons a t =>
    by_cases hp : p a = true
    · rw [List.eraseP_cons_of_pos hp] at h
      simp [h]
    · rw [List.eraseP_cons_of_neg (by simp [hp])] at h
      exact absurd h (by simp)

theorem ndd_removePod (c c' : SchedCache) (p : Pod)
    (hrm : c.removePod p = Except.ok c') : NodesDeletedDead c c' := by
  intro nm ni ha hb
  simp only [SchedCache.removePod] at hrm
  cases hl : alookup c.nodes p.nodeName with
  | none => simp only [hl] at hrm; exact Except.noConfusion hrm
  | some n =>
    simp only [hl] at hrm
    cases hr : n.RemovePod p with
    | error e => simp only [hr] at hrm; exact Except.noConfusion hrm
    | ok n' =>
      simp only [hr] at hrm
      by_cases hdead : n'.pods = [] ∧ n'.node = none
      · rw [if_pos hdead] at hrm
        have hc' : c' = { c with nodes := aerase c.nodes p.nodeName } :=
          (Except.ok.inj hrm).symm
        by_cases hnm : nm = p.nodeName
        · subst hnm
          have hni : ni = n := by
            rw [ha] at hl
            exact Option.some_inj.1 hl
          subst hni
          -- the erased NodeInfo: preserved node field and single-pod list
          have hn' : n' = removedNI ni p := by
            simp only [NodeInfo.RemovePod] at hr
            by_cases hany : ni.pods.any (fun q => getPodKey q == getPodKey p) = true
            · rw [if_pos hany] at hr
              exact (Except.ok.inj hr).symm
            · rw [if_neg hany] at hr
              exact Except.noConfusion hr
          left
          constructor
          · have : n'.node = ni.node := by rw [hn']; rfl
            rw [← this]; exact hdead.2
          · have hp : ni.pods.eraseP (fun q => getPodKey q == getPodKey p) = [] := by
              have : n'.pods = ni.pods.eraseP (fun q => getPodKey q == getPodKey p) := by
                rw [hn']; rfl
              rw [← this]; exact hdead.1
            exact eraseP_nil_length _ _ hp
        · rw [hc'] at hb
          have : alookup (aerase c.nodes p.nodeName) nm = alookup c.nodes nm :=
            alookup_aerase_ne _ hnm
          rw [this, ha] at hb
          exact Option.noConfusion hb
      · rw [if_neg hdead] at hrm
        have hc' : c' = { c with nodes := ainsert c.nodes p.nodeName n' } :=
          (Except.ok.inj hrm).symm
        rw [hc'] at hb
        by_cases hnm : nm = p.nodeName
        · subst hnm
          rw [alookup_ainsert_self] at hb
          exact Option.noConfusion hb
        · rw [alookup_ainsert_ne _ _ hnm, ha] at hb
          exact Option.noConfusion hb

theorem removePod_frame (c c' : SchedCache) (p : Pod)
    (hrm : c.removePod p = Except.ok c') :
    c'.ttl = c.ttl ∧ c'.assumedPods = c.assumedPods ∧ c'.podStates = c.podStates ∧
    c'.pdbs = c.pdbs := by
  simp only [SchedCache.removePod] at hrm
  cases hl : alookup c.nodes p.nodeName with
  | none => simp only [hl] at hrm; exact Except.noConfusion hrm
  | some n =>
    simp only [hl] at hrm
    cases hr : n.RemovePod p with
    | error e => simp only [hr] at hrm; exact Except.noConfusion hrm
    | ok n' =>
      simp only [hr] at hrm
      by_cases hdead : n'.pods = [] ∧ n'.node = none
      · rw [if_pos hdead] at hrm
        have hc' : c' = { c with nodes := aerase c.nodes p.nodeName } :=
          (Except.ok.inj hrm).symm
        rw [hc']
        exact ⟨rfl, rfl, rfl, rfl⟩
      · rw [if_neg hdead] at hrm
        have hc' : c' = { c with nodes := ainsert c.nodes p.nodeName n' } :=
          (Except.ok.inj hrm).symm
        rw [hc']
        exact ⟨rfl, rfl, rfl, rfl⟩

/-- The cache-shaped frame facts preserved by the resize engine's cache
mutations: the node map, assumed set, ttl and budgets are untouched, and no
podStates key disappears. -/
def CacheFrame (c c' : SchedCache) : Prop :=
  c'.nodes = c.nodes ∧ c'.assumedPods = c.assumedPods ∧ c'.ttl = c.ttl ∧
  c'.pdbs = c.pdbs ∧ (∀ a, a ∈ akeys c.podStates → a ∈ akeys c'.podStates)

theorem cacheFrame_refl (c : SchedCache) : CacheFrame c c :=
  ⟨rfl, rfl, rfl, rfl, fun _ h => h⟩

/-- The cached-pod update written by a rollback. -/
def rbState (st : PodState) (cs : List Container) : PodState :=
  { st with pod := { st.pod with containers := cs } }

theorem rollback_frame (c : SchedCache) (o np : Pod) (c' : SchedCache) (p' : Pod)
    (h : c.rollbackPodResources o np = .ok (c', p')) : CacheFrame c c' := by
  simp only [SchedCache.rollbackPodResources] at h
  cases hst : alookup c.podStates (getPodKey o) with
  | none => simp only [hst] at h; exact Except.noConfusion h
  | some st =>
    simp only [hst] at h
    cases hrr : np.resizeResources with
    | none => simp only [hrr] at h; exact Except.noConfusion h
    | some rr =>
      simp only [hrr] at h
      cases hrs : rollbackStep rr.rollback np.containers st.pod.containers with
      | error e => simp only [hrs] at h; exact Except.noConfusion h
      | ok r =>
        simp only [hrs] at h
        have hc : c' = { c with
            podStates := ainsert c.podStates (getPodKey o) (rbState st r.2) } := by
          have h2 := congrArg Prod.fst (Except.ok.inj h)
          exact h2.symm
        rw [hc]
        exact ⟨rfl, rfl, rfl, rfl, fun a ha => mem_akeys_ainsert _ _ _ _ ha⟩

theorem status_frame (c : SchedCache) (o np : Pod) (c' : SchedCache) (p' : Pod)
    (h : c.processPodResizeStatus o np = .ok (c', p')) : CacheFrame c c' := by
  simp only [SchedCache.processPodResizeStatus] at h
  cases hfind : np.conditions.find? isResizeStatusCond with
  | none =>
    simp only [hfind] at h
    have h2 : c = c' := congrArg Prod.fst (Except.ok.inj h)
    rw [← h2]
    exact cacheFrame_refl c
  | some cond =>
    simp only [hfind] at h
    cases hrr : np.resizeResources with
    | none => simp only [hrr] at h; exact Except.noConfusion h
    | some rr =>
      simp only [hrr] at h
      by_cases hmsg : cond.message = rr.actionVersion
      · rw [if_pos hmsg] at h
        by_cases hrb : cond.status = CondStatus.condFalse ∧ rr.rollback ≠ []
        · rw [if_pos hrb] at h
          cases hro : c.rollbackPodResources o np with
          | error e => simp only [hro] at h; exact Except.noConfusion h
          | ok r =>
            simp only [hro] at h
            cases hrr1 : r.2.resizeResources with
            | none => simp only [hrr1] at h; exact Except.noConfusion h
            | some rr1 =>
              simp only [hrr1] at h
              have hfr : CacheFrame c r.1 := rollback_frame c o np r.1 r.2 (by
                rw [hro])
              have h2 : r.1 = c' := congrArg Prod.fst (Except.ok.inj h)
              rw [← h2]
              exact hfr
        · rw [if_neg hrb] at h
          simp only [] at h
          cases hrr1 : np.resizeResources with
          | none => rw [hrr1] at h; simp at h
          | some rr1 =>
            rw [hrr1] at h
            have h2 : c = c' := congrArg Prod.fst (Except.ok.inj h)
            rw [← h2]
            exact cacheFrame_refl c
      · rw [if_neg hmsg] at h
        have h2 : c = c' := congrArg Prod.fst (Except.ok.inj h)
        rw [← h2]
        exact cacheFrame_refl c

theorem setup_frame (c : SchedCache) (o np : Pod) (rmap : List (String × Container))
    (c' : SchedCache) (p' : Pod)
    (h : c.setupInPlaceResizeAction o np rmap = .ok (c', p')) : CacheFrame c c' := by
  simp only [SchedCache.setupInPlaceResizeAction] at h
  cases hst : alookup c.podStates (getPodKey o) with
  | none => simp only [hst] at h; exact Except.noConfusion h
  | some st =>
    simp only [hst] at h
    cases hcs : commitStep rmap np.containers st.pod.containers with
    | error e => simp only [hcs] at h; exact Except.noConfusion h
    | ok r =>
      simp only [hcs] at h
      cases hrr : np.resizeResources with
      | none => simp only [hrr] at h; exact Except.noConfusion h
      | some rr =>
        simp only [hrr] at h
        have hc : c' = { c with
            podStates := ainsert c.podStates (getPodKey o) (rbState st r.2.1) } := by
          have h2 := congrArg Prod.fst (Except.ok.inj h)
          exact h2.symm
        rw [hc]
        exact ⟨rfl, rfl, rfl, rfl, fun a ha => mem_akeys_ainsert _ _ _ _ ha⟩

theorem scaling_frame (c : SchedCache) (o np : Pod) :
    CacheFrame c (c.processPodResourcesScaling o np).1 := by
  simp only [SchedCache.processPodResourcesScaling]
  split
  · exact cacheFrame_refl c
  · split
    · exact cacheFrame_refl c
    · rename_i node hn x c1 np1 hps
      have hfr : CacheFrame c c1 := status_frame c o np c1 np1 hps
      repeat' split
      all_goals try exact hfr
      all_goals rename_i c2 np3 hsetup
      all_goals
        exact
          let hfr2 := setup_frame c1 o _ _ c2 np3 hsetup
          ⟨hfr2.1.trans hfr.1, hfr2.2.1.trans hfr.2.1,
            hfr2.2.2.1.trans hfr.2.2.1, hfr2.2.2.2.1.trans hfr.2.2.2.1,
            fun a ha => hfr2.2.2.2.2 a (hfr.2.2.2.2 a ha)⟩

/-- The C2 obligation for a single transition. -/
def PreservesInv (c c' : SchedCache) : Prop :=
  Inv1 c' ∧ NodesDeletedDead c c'

theorem preservesInv_refl (c : SchedCache) (h1 : Inv1 c) : PreservesInv c c :=
  ⟨h1, fun nm ni ha hb => absurd (ha ▸ hb) (by simp)⟩

theorem ainsert_nodes_isSome {α : Type} (m : List (String × α)) (k nm : String) (v : α)
    (h : (alookup m nm).isSome) : (alookup (ainsert m k v) nm).isSome := by
  by_cases he : nm = k
  · subst he; simp [alookup_ainsert_self]
  · rw [alookup_ainsert_ne _ _ he]; exact h

theorem assumePod_inv (c : SchedCache) (p : Pod) (hwf : WF c) (h1 : Inv1 c) :
    PreservesInv c (c.AssumePod p).1 := by
  by_cases hl : (alookup c.podStates (getPodKey p)).isSome
  · have hres : (c.AssumePod p).1 = c := by simp [SchedCache.AssumePod, hl]
    rw [hres]
    exact preservesInv_refl c h1
  · have hres : (c.AssumePod p).1 = { c.addPod p with
        podStates := ainsert (c.addPod p).podStates (getPodKey p) ⟨p, none, false⟩,
        assumedPods := sinsert (c.addPod p).assumedPods (getPodKey p) } := by
      simp [SchedCache.AssumePod, hl]
    rw [hres]
    constructor
    · intro k hk
      rw [show (c.addPod p).assumedPods = c.assumedPods from rfl] at hk
      rw [mem_sinsert_iff] at hk
      rcases hk with hk | hk
      · exact mem_akeys_ainsert _ _ _ _ (h1 k hk)
      · subst hk
        rw [mem_akeys_iff, alookup_ainsert_self]
        rfl
    · exact ndd_of_no_delete _ _ (fun nm h => addPod_nodes_isSome c p nm h)

theorem finishBinding_inv (c : SchedCache) (p : Pod) (now : Int)
    (hwf : WF c) (h1 : Inv1 c) : PreservesInv c (c.finishBinding p now).1 := by
  cases hl : alookup c.podStates (getPodKey p) with
  | none =>
    have hres : (c.finishBinding p now).1 = c := by simp [SchedCache.finishBinding, hl]
    rw [hres]; exact preservesInv_refl c h1
  | some st =>
    by_cases ha : getPodKey p ∈ c.assumedPods
    · have hres : (c.finishBinding p now).1
          = fbUpdate c (getPodKey p) st (now + c.ttl) := by
        simp [SchedCache.finishBinding, hl, ha, fbUpdate]
      rw [hres]
      rw [fbUpdate]
      refine ⟨?_, ndd_of_no_delete _ _ (fun nm h => h)⟩
      intro k hk
      exact mem_akeys_ainsert _ _ _ _ (h1 k hk)
    · have hres : (c.finishBinding p now).1 = c := by simp [SchedCache.finishBinding, hl, ha]
      rw [hres]; exact preservesInv_refl c h1


/-- Shared shape of `ForgetPod`'s and `expirePod`'s success path: a removal
followed by deletion of the key from both `assumedPods` and `podStates`. -/
theorem eraseBoth_inv (c c1 : SchedCache) (q : Pod) (key : String)
    (hwf : WF c) (h1 : Inv1 c) (hrm : c.removePod q = Except.ok c1) :
    PreservesInv c { c1 with assumedPods := serase c1.assumedPods key,
                             podStates := aerase c1.podStates key } := by
  obtain ⟨httl, hass, hps, hpdb⟩ := removePod_frame c c1 q hrm
  constructor
  · intro k hk
    simp only [hass] at hk
    have hkmem : k ∈ c.assumedPods := mem_serase hk
    have hkne : k ≠ key := by
      intro heq
      subst heq
      exact not_mem_serase_self k hwf.2.1 (hass ▸ hk)
    simp only [hps]
    exact mem_akeys_aerase_of_ne _ _ _ hkne (h1 k hkmem)
  · exact ndd_nodes_eq c c1 _ (ndd_removePod c c1 q hrm) rfl

theorem forgetPod_inv (c : SchedCache) (p : Pod) (hwf : WF c) (h1 : Inv1 c) :
    PreservesInv c (c.ForgetPod p).1 := by
  cases hl : alookup c.podStates (getPodKey p) with
  | none =>
    have hres : (c.ForgetPod p).1 = c := by simp [SchedCache.ForgetPod, hl]
    rw [hres]; exact preservesInv_refl c h1
  | some st =>
    by_cases hne : st.pod.nodeName ≠ p.nodeName
    · have hres : (c.ForgetPod p).1 = c := by simp [SchedCache.ForgetPod, hl, hne]
      rw [hres]; exact preservesInv_refl c h1
    · by_cases ha : getPodKey p ∈ c.assumedPods
      · cases hrm : c.removePod p with
        | error e =>
          have hres : (c.ForgetPod p).1 = c := by simp [SchedCache.ForgetPod, hl, hne, ha, hrm]
          rw [hres]; exact preservesInv_refl c h1
        | ok c1 =>
          have hres : (c.ForgetPod p).1 = { c1 with
              assumedPods := serase c1.assumedPods (getPodKey p),
              podStates := aerase c1.podStates (getPodKey p) } := by
            simp [SchedCache.ForgetPod, hl, hne, ha, hrm]
          rw [hres]
          exact eraseBoth_inv c c1 p (getPodKey p) hwf h1 hrm
      · have hres : (c.ForgetPod p).1 = c := by simp [SchedCache.ForgetPod, hl, hne, ha]
        rw [hres]; exact preservesInv_refl c h1

theorem expirePod_inv (c : SchedCache) (key : String) (ps : PodState)
    (hwf : WF c) (h1 : Inv1 c) : PreservesInv c (c.expirePod key ps).1 := by
  cases hrm : c.removePod ps.pod with
  | error e =>
    have hres : (c.expirePod key ps).1 = c := by simp [SchedCache.expirePod, hrm]
    rw [hres]; exact preservesInv_refl c h1
  | ok c1 =>
    have hres : (c.expirePod key ps).1 = { c1 with
        assumedPods := serase c1.assumedPods key,
        podStates := aerase c1.podStates key } := by
      simp [SchedCache.expirePod, hrm]
    rw [hres]
    exact eraseBoth_inv c c1 ps.pod key hwf h1 hrm

theorem addNode_inv (c : SchedCache) (n : Node) (hwf : WF c) (h1 : Inv1 c) :
    PreservesInv c (c.AddNode n).1 := by
  constructor
  · intro k hk
    exact h1 k hk
  · exact ndd_of_no_delete _ _ (fun nm h => ainsert_nodes_isSome _ _ _ _ h)

theorem updateNode_inv (c : SchedCache) (m n : Node) (hwf : WF c) (h1 : Inv1 c) :
    PreservesInv c (c.UpdateNode m n).1 := by
  constructor
  · intro k hk
    exact h1 k hk
  · exact ndd_of_no_delete _ _ (fun nm h => ainsert_nodes_isSome _ _ _ _ h)

theorem removeNode_inv (c : SchedCache) (n : Node) (hwf : WF c) (h1 : Inv1 c) :
    PreservesInv c (c.RemoveNode n).1 := by
  cases hl : alookup c.nodes n.name with
  | none =>
    have hres : (c.RemoveNode n).1 = c := by simp [SchedCache.RemoveNode, hl]
    rw [hres]; exact preservesInv_refl c h1
  | some ni =>
    by_cases hdead : ni.RemoveNode.pods = [] ∧ ni.RemoveNode.node = none
    · have hres : (c.RemoveNode n).1 = { c with nodes := aerase c.nodes n.name } := by
        simp only [SchedCache.RemoveNode, hl]
        rw [if_pos hdead]
      rw [hres]
      constructor
      · intro k hk
        exact h1 k hk
      · intro nm x ha hb
        by_cases hnm : nm = n.name
        · subst hnm
          right
          have hx : x = ni := by
            rw [ha] at hl
            exact Option.some_inj.1 hl
          rw [hx]
          exact hdead.1
        · have : alookup (aerase c.nodes n.name) nm = alookup c.nodes nm :=
            alookup_aerase_ne _ hnm
          rw [show ({ c with nodes := aerase c.nodes n.name } : SchedCache).nodes
              = aerase c.nodes n.name from rfl, this, ha] at hb
          exact Option.noConfusion hb
    · have hres : (c.RemoveNode n).1
          = { c with nodes := ainsert c.nodes n.name ni.RemoveNode } := by
        simp only [SchedCache.RemoveNode, hl]
        rw [if_neg hdead]
      rw [hres]
      constructor
      · intro k hk
        exact h1 k hk
      · exact ndd_of_no_delete _ _ (fun nm h => ainsert_nodes_isSome _ _ _ _ h)

theorem addPodOp_inv (c : SchedCache) (p : Pod) (hwf : WF c) (h1 : Inv1 c) :
    PreservesInv c (c.AddPod p).1 := by
  cases hl : alookup c.podStates (getPodKey p) with
  | none =>
    have hres : (c.AddPod p).1 = { c.addPod p with
        podStates := ainsert (c.addPod p).podStates (getPodKey p) ⟨p, none, false⟩ } := by
      simp [SchedCache.AddPod, hl]
    rw [hres]
    constructor
    · intro k hk
      exact mem_akeys_ainsert _ _ _ _ (h1 k hk)
    · exact ndd_of_no_delete _ _ (fun nm h => addPod_nodes_isSome c p nm h)
  | some st =>
    by_cases ha : getPodKey p ∈ c.assumedPods
    · by_cases hne : st.pod.nodeName ≠ p.nodeName
      · -- the confirming node differs from the assumed one
        cases hrm : c.removePod st.pod with
        | error e =>
          by_cases hfatal : e = CacheErr.nilDeref
          · subst hfatal
            have hres : (c.AddPod p).1 = c := by
              simp only [SchedCache.AddPod, hl]
              rw [if_pos ha, if_pos hne, hrm]
            rw [hres]; exact preservesInv_refl c h1
          · have hres : (c.AddPod p).1 = { c.addPod p with
                assumedPods := serase (c.addPod p).assumedPods (getPodKey p),
                podStates := ainsert (c.addPod p).podStates (getPodKey p)
                  ⟨p, none, st.bindingFinished⟩ } := by
              simp only [SchedCache.AddPod, hl]
              rw [if_pos ha, if_pos hne, hrm]
              cases e <;> simp_all
            rw [hres]
            constructor
            · intro k hk
              have hk2 : k ∈ c.assumedPods := mem_serase hk
              exact mem_akeys_ainsert _ _ _ _ (h1 k hk2)
            · exact ndd_of_no_delete _ _ (fun nm h => addPod_nodes_isSome c p nm h)
        | ok c1 =>
          have hres : (c.AddPod p).1 = { c1.addPod p with
              assumedPods := serase (c1.addPod p).assumedPods (getPodKey p),
              podStates := ainsert (c1.addPod p).podStates (getPodKey p)
                ⟨p, none, st.bindingFinished⟩ } := by
            simp only [SchedCache.AddPod, hl]
            rw [if_pos ha, if_pos hne, hrm]
          obtain ⟨httl, hass, hps, hpdb⟩ := removePod_frame c c1 st.pod hrm
          rw [hres]
          constructor
          · intro k hk
            simp only [SchedCache.addPod] at hk
            simp only [hass] at hk
            have hk2 : k ∈ c.assumedPods := mem_serase hk
            have : k ∈ akeys c.podStates := h1 k hk2
            rw [show ((c1.addPod p).podStates) = c.podStates by
              simp [SchedCache.addPod, hps]]
            exact mem_akeys_ainsert _ _ _ _ this
          · have hndd : NodesDeletedDead c (c1.addPod p) :=
              ndd_comp_no_delete c c1 _ (ndd_removePod c c1 st.pod hrm)
                (fun nm h => addPod_nodes_isSome c1 p nm h)
            exact ndd_nodes_eq c _ _ hndd rfl
      · -- same node: no move
        have hres : (c.AddPod p).1 = { c with
            assumedPods := serase c.assumedPods (getPodKey p),
            podStates := ainsert c.podStates (getPodKey p)
              ⟨p, none, st.bindingFinished⟩ } := by
          simp only [SchedCache.AddPod, hl]
          rw [if_pos ha, if_neg hne]
        rw [hres]
        constructor
        · intro k hk
          have hk2 : k ∈ c.assumedPods := mem_serase hk
          exact mem_akeys_ainsert _ _ _ _ (h1 k hk2)
        · exact ndd_of_no_delete _ _ (fun nm h => h)
    · have hres : (c.AddPod p).1 = c := by simp [SchedCache.AddPod, hl, ha]
      rw [hres]; exact preservesInv_refl c h1

theorem removePodOp_inv (c : SchedCache) (p : Pod) (hwf : WF c) (h1 : Inv1 c) :
    PreservesInv c (c.RemovePod p).1 := by
  cases hl : alookup c.podStates (getPodKey p) with
  | none =>
    have hres : (c.RemovePod p).1 = c := by simp [SchedCache.RemovePod, hl]
    rw [hres]; exact preservesInv_refl c h1
  | some st =>
    by_cases ha : getPodKey p ∉ c.assumedPods
    · by_cases hne : st.pod.nodeName ≠ p.nodeName
      · have hres : (c.RemovePod p).1 = c := by
          simp only [SchedCache.RemovePod, hl]
          rw [if_pos ha, if_pos hne]
        rw [hres]; exact preservesInv_refl c h1
      · cases hrm : c.removePod st.pod with
        | error e =>
          have hres : (c.RemovePod p).1 = c := by
            simp only [SchedCache.RemovePod, hl]
            rw [if_pos ha, if_neg hne, hrm]
          rw [hres]; exact preservesInv_refl c h1
        | ok c1 =>
          have hres : (c.RemovePod p).1
              = { c1 with podStates := aerase c1.podStates (getPodKey p) } := by
            simp only [SchedCache.RemovePod, hl]
            rw [if_pos ha, if_neg hne, hrm]
          obtain ⟨httl, hass, hps, hpdb⟩ := removePod_frame c c1 st.pod hrm
          rw [hres]
          constructor
          · intro k hk
            simp only [hass] at hk
            have hkne : k ≠ getPodKey p := fun heq => ha (heq ▸ hk)
            simp only [hps]
            exact mem_akeys_aerase_of_ne _ _ _ hkne (h1 k hk)
          · exact ndd_nodes_eq c c1 _ (ndd_removePod c c1 st.pod hrm) rfl
    · have hres : (c.RemovePod p).1 = c := by
        simp only [SchedCache.RemovePod, hl]
        rw [if_neg ha]
      rw [hres]; exact preservesInv_refl c h1

theorem updatePodOp_inv (c : SchedCache) (vs : Bool) (o np : Pod)
    (hwf : WF c) (h1 : Inv1 c) : PreservesInv c (c.UpdatePod vs o np).1 := by
  cases hl : alookup c.podStates (getPodKey o) with
  | none =>
    have hres : (c.UpdatePod vs o np).1 = c := by simp [SchedCache.UpdatePod, hl]
    rw [hres]; exact preservesInv_refl c h1
  | some st =>
    by_cases ha : getPodKey o ∉ c.assumedPods
    · by_cases hne : st.pod.nodeName ≠ np.nodeName
      · have hres : (c.UpdatePod vs o np).1 = c := by
          simp only [SchedCache.UpdatePod, hl]
          rw [if_pos ha, if_pos hne]
        rw [hres]; exact preservesInv_refl c h1
      · have hres : (c.UpdatePod vs o np).1 = (c.updatePod vs o np).1 := by
          simp only [SchedCache.UpdatePod, hl]
          rw [if_pos ha, if_neg hne]
        rw [hres]
        -- analyze the internal updatePod
        cases hrm : c.removePod o with
        | error e =>
          have hres2 : (c.updatePod vs o np).1 = c := by
            simp [SchedCache.updatePod, hrm]
          rw [hres2]; exact preservesInv_refl c h1
        | ok c1 =>
          obtain ⟨httl, hass, hps, hpdb⟩ := removePod_frame c c1 o hrm
          have hnddc1 : NodesDeletedDead c c1 := ndd_removePod c c1 o hrm
          by_cases hgate : vs = true ∧ o.phase = PodPhase.running ∧
              np.phase = PodPhase.running ∧ np.deletionTimestamp = none ∧
              np.resizeResources ≠ none
          · have hfr : CacheFrame c1 (c1.processPodResourcesScaling o np).1 :=
              scaling_frame c1 o np
            have hinv2 : Inv1 ((c1.processPodResourcesScaling o np).1) := by
              intro k hk
              rw [hfr.2.1, hass] at hk
              exact hfr.2.2.2.2 k (by rw [hps]; exact h1 k hk)
            have hnddc2 : NodesDeletedDead c (c1.processPodResourcesScaling o np).1 :=
              ndd_nodes_eq c c1 _ hnddc1 hfr.1
            cases hsc : c1.processPodResourcesScaling o np with
            | mk c2 rest =>
              obtain ⟨np2, e?⟩ := rest
              rw [hsc] at hinv2 hnddc2 hfr
              cases e? with
              | some e =>
                by_cases hfatal : e.isFatal = true
                · have hres2 : (c.updatePod vs o np).1 = c2 := by
                    simp only [SchedCache.updatePod, hrm]
                    rw [if_pos hgate, hsc]
                    simp [hfatal]
                  rw [hres2]
                  exact ⟨hinv2, hnddc2⟩
                · have hres2 : (c.updatePod vs o np).1 = c2.addPod np2 := by
                    simp only [SchedCache.updatePod, hrm]
                    rw [if_pos hgate, hsc]
                    simp [hfatal]
                  rw [hres2]
                  refine ⟨?_, ndd_comp_no_delete c c2 _ hnddc2
                    (fun nm h => addPod_nodes_isSome c2 np2 nm h)⟩
                  intro k hk
                  rw [show (c2.addPod np2).assumedPods = c2.assumedPods from rfl] at hk
                  exact hinv2 k hk
              | none =>
                have hres2 : (c.updatePod vs o np).1 = c2.addPod np2 := by
                  simp only [SchedCache.updatePod, hrm]
                  rw [if_pos hgate, hsc]
                rw [hres2]
                refine ⟨?_, ndd_comp_no_delete c c2 _ hnddc2
                  (fun nm h => addPod_nodes_isSome c2 np2 nm h)⟩
                intro k hk
                rw [show (c2.addPod np2).assumedPods = c2.assumedPods from rfl] at hk
                exact hinv2 k hk
          · have hres2 : (c.updatePod vs o np).1 = c1.addPod np := by
              simp only [SchedCache.updatePod, hrm]
              rw [if_neg hgate]
            rw [hres2]
            refine ⟨?_, ndd_comp_no_delete c c1 _ hnddc1
              (fun nm h => addPod_nodes_isSome c1 np nm h)⟩
            intro k hk
            rw [show (c1.addPod np).assumedPods = c1.assumedPods from rfl, hass] at hk
            rw [show (c1.addPod np).podStates = c1.podStates from rfl, hps]
            exact h1 k hk
    · have hres : (c.UpdatePod vs o np).1 = c := by
        simp only [SchedCache.UpdatePod, hl]
        rw [if_neg ha]
      rw [hres]; exact preservesInv_refl c h1

/-! ### C2 -/

/-- C2: every mutating cache operation — AssumePod, FinishBinding, ForgetPod,
AddPod, UpdatePod, RemovePod, AddNode, UpdateNode, RemoveNode and expirePod —
preserves invariant 1 (every assumed key is a podStates key) and invariant 5
(a NodeInfo is deleted from the node map only when, at the deletion, its pods
collection is empty and its node descriptor is absent; `NodesDeletedDead`
states this on the pre-state: the deleted NodeInfo either already had no
descriptor and held at most the one pod being removed, or already had no
pods and the operation clears its descriptor). -/
theorem all_ops_preserve_invariants :
    (∀ c p, WF c → Inv1 c → PreservesInv c (SchedCache.AssumePod c p).1) ∧
    (∀ c p now, WF c → Inv1 c → PreservesInv c (SchedCache.finishBinding c p now).1) ∧
    (∀ c p, WF c → Inv1 c → PreservesInv c (SchedCache.ForgetPod c p).1) ∧
    (∀ c p, WF c → Inv1 c → PreservesInv c (SchedCache.AddPod c p).1) ∧
    (∀ c vs o np, WF c → Inv1 c → PreservesInv c (SchedCache.UpdatePod c vs o np).1) ∧
    (∀ c p, WF c → Inv1 c → PreservesInv c (SchedCache.RemovePod c p).1) ∧
    (∀ c n, WF c → Inv1 c → PreservesInv c (SchedCache.AddNode c n).1) ∧
    (∀ c m n, WF c → Inv1 c → PreservesInv c (SchedCache.UpdateNode c m n).1) ∧
    (∀ c n, WF c → Inv1 c → PreservesInv c (SchedCache.RemoveNode c n).1) ∧
    (∀ c key ps, WF c → Inv1 c → PreservesInv c (SchedCache.expirePod c key ps).1) :=
  ⟨fun c p hwf h1 => assumePod_inv c p hwf h1,
   fun c p now hwf h1 => finishBinding_inv c p now hwf h1,
   fun c p hwf h1 => forgetPod_inv c p hwf h1,
   fun c p hwf h1 => addPodOp_inv c p hwf h1,
   fun c vs o np hwf h1 => updatePodOp_inv c vs o np hwf h1,
   fun c p hwf h1 => removePodOp_inv c p hwf h1,
   fun c n hwf h1 => addNode_inv c n hwf h1,
   fun c m n hwf h1 => updateNode_inv c m n hwf h1,
   fun c n hwf h1 => removeNode_inv c n hwf h1,
   fun c key ps hwf h1 => expirePod_inv c key ps hwf h1⟩

/-- Witness for C2: all ten operations applied to concrete caches. -/
theorem all_ops_preserve_invariants_witness :
    (WF cEmpty ∧ Inv1 cEmpty ∧ WF cConfirmedA ∧ Inv1 cConfirmedA) ∧
    PreservesInv cEmpty (SchedCache.AssumePod cEmpty wPodA).1 ∧
    PreservesInv cConfirmedA (SchedCache.finishBinding cConfirmedA wPodA 0).1 ∧
    PreservesInv cConfirmedA (SchedCache.ForgetPod cConfirmedA wPodA).1 ∧
    PreservesInv cConfirmedA (SchedCache.AddPod cConfirmedA wPodA).1 ∧
    PreservesInv cConfirmedA (SchedCache.UpdatePod cConfirmedA true wPodA wPodA).1 ∧
    PreservesInv cConfirmedA (SchedCache.RemovePod cConfirmedA wPodA).1 ∧
    PreservesInv cConfirmedA (SchedCache.AddNode cConfirmedA wNode1).1 ∧
    PreservesInv cConfirmedA (SchedCache.UpdateNode cConfirmedA wNode1 wNode1).1 ∧
    PreservesInv cConfirmedA (SchedCache.RemoveNode cConfirmedA wNode1).1 ∧
    PreservesInv cConfirmedA
      (SchedCache.expirePod cConfirmedA (getPodKey wPodA) ⟨wPodA, none, false⟩).1 := by
  have hwfE : WF cEmpty := by refine ⟨?_, ?_, ?_⟩ <;> decide
  have h1E : Inv1 cEmpty := by intro k hk; simp [cEmpty] at hk
  have hwfC : WF cConfirmedA := by refine ⟨?_, ?_, ?_⟩ <;> decide
  have h1C : Inv1 cConfirmedA := by intro k hk; simp [cConfirmedA] at hk
  refine ⟨⟨hwfE, h1E, hwfC, h1C⟩, ?_, ?_, ?_, ?_, ?_, ?_, ?_, ?_, ?_, ?_⟩
  · exact all_ops_preserve_invariants.1 cEmpty wPodA hwfE h1E
  · exact all_ops_preserve_invariants.2.1 cConfirmedA wPodA 0 hwfC h1C
  · exact all_ops_preserve_invariants.2.2.1 cConfirmedA wPodA hwfC h1C
  · exact all_ops_preserve_invariants.2.2.2.1 cConfirmedA wPodA hwfC h1C
  · exact all_ops_preserve_invariants.2.2.2.2.1 cConfirmedA true wPodA wPodA hwfC h1C
  · exact all_ops_preserve_invariants.2.2.2.2.2.1 cConfirmedA wPodA hwfC h1C
  · exact all_ops_preserve_invariants.2.2.2.2.2.2.1 cConfirmedA wNode1 hwfC h1C
  · exact all_ops_preserve_invariants.2.2.2.2.2.2.2.1 cConfirmedA wNode1 wNode1 hwfC h1C
  · exact all_ops_preserve_invariants.2.2.2.2.2.2.2.2.1 cConfirmedA wNode1 hwfC h1C
  · exact all_ops_preserve_invariants.2.2.2.2.2.2.2.2.2 cConfirmedA (getPodKey wPodA)
      ⟨wPodA, none, false⟩ hwfC h1C

/-! ### C6 helper lemmas -/

theorem mem_aerase {α : Type} {m : List (String × α)} {k : String} {e : String × α}
    (h : e ∈ aerase m k) : e ∈ m := by
  induction m with
  | nil => simp [aerase] at h
  | cons hd t ih =>
    obtain ⟨k₀, v₀⟩ := hd
    simp only [aerase] at h
    by_cases hk : k₀ = k
    · rw [if_pos hk] at h
      exact List.mem_cons_of_mem _ h
    · rw [if_neg hk] at h
      rcases List.mem_cons.1 h with h | h
      · exact List.mem_cons.2 (Or.inl h)
      · exact List.mem_cons_of_mem _ (ih h)

theorem mem_alookup_nodup {α : Type} {m : List (String × α)} {k : String} {v : α}
    (hn : (akeys m).Nodup) (h : (k, v) ∈ m) : alookup m k = some v := by
  induction m with
  | nil => simp at h
  | cons hd t ih =>
    obtain ⟨k₀, v₀⟩ := hd
    simp only [akeys, List.map_cons, List.nodup_cons] at hn
    rcases List.mem_cons.1 h with h | h
    · have hk : k₀ = k := (congrArg Prod.fst h).symm
      have hv : v₀ = v := (congrArg Prod.snd h).symm
      simp [alookup, hk, hv]
    · have hk : k₀ ≠ k := by
        intro heq
        subst heq
        exact hn.1 (List.mem_map.2 ⟨(k₀, v), h, rfl⟩)
      simp only [alookup, if_neg hk]
      exact ih hn.2 h

theorem countKey_eraseKey_le (l : List Pod) (kk k : String) :
    countKey (l.eraseP (fun q => getPodKey q == kk)) k ≤ countKey l k := by
  by_cases hany : l.any (fun q => getPodKey q == kk) = true
  · by_cases hkk : kk = k
    · subst hkk
      have := countKey_eraseKey_self l kk hany
      omega
    · rw [countKey_eraseKey_other l kk k hkk]
  · have : l.eraseP (fun q => getPodKey q == kk) = l := by
      apply List.eraseP_of_forall_not
      intro a ha
      simp only [List.any_eq_true, not_exists, not_and] at hany
      intro hc
      exact absurd hc (by simpa using hany a ha)
    rw [this]

theorem alookup_none_aerase {α : Type} (m : List (String × α)) (k k2 : String)
    (h : alookup m k = none) : alookup (aerase m k2) k = none := by
  by_cases he : k = k2
  · subst he
    cases hl : alookup (aerase m k) k with
    | none => rfl
    | some v =>
      have := mem_aerase (alookup_mem hl)
      have h2 : k ∈ akeys m := List.mem_map.2 ⟨(k, v), this, rfl⟩
      rw [mem_akeys_iff, h] at h2
      exact absurd h2 (by simp)
  · rw [alookup_aerase_ne _ he]
    exact h

theorem mem_serase_iff_of_ne {l : List String} {k a : String} (hne : a ≠ k) :
    a ∈ serase l k ↔ a ∈ l :=
  ⟨mem_serase, mem_serase_of_ne hne⟩

/-- The global hypotheses under which the reaper runs: well-formed maps, the
cached pod of every state is stored under its own key, every assumed key
resolves (invariant 1), `bindingFinished` implies an armed deadline for
assumed entries (invariant 4), and every tracked pod is accounted exactly
once, on its own node, and nowhere else (invariants 2). -/
def GH (c : SchedCache) : Prop :=
  WF c ∧
  (∀ e ∈ c.podStates, getPodKey e.2.pod = e.1) ∧
  (∀ k ∈ c.assumedPods, (alookup c.podStates k).isSome) ∧
  (∀ k ∈ c.assumedPods, ∀ st, alookup c.podStates k = some st →
    st.bindingFinished = true → st.deadline.isSome) ∧
  (∀ e ∈ c.podStates, ∃ ni, alookup c.nodes e.2.pod.nodeName = some ni ∧
    countKey ni.pods e.1 = 1) ∧
  (∀ e ∈ c.podStates, ∀ name ni, alookup c.nodes name = some ni →
    name ≠ e.2.pod.nodeName → countKey ni.pods e.1 = 0)

/-- One successful eviction step: under the global hypotheses, `expirePod`
succeeds, removes the key from both maps and the pod from its node, keeps all
other keys untouched, never increases any node count, and re-establishes the
global hypotheses. -/
theorem expirePod_step (c : SchedCache) (k : String) (ps : PodState)
    (hGH : GH c) (hk : k ∈ c.assumedPods) (hps : alookup c.podStates k = some ps) :
    ∃ c1, c.expirePod k ps = (c1, none) ∧
      GH c1 ∧
      k ∉ c1.assumedPods ∧
      alookup c1.podStates k = none ∧
      countKey (nodePodsAt c1 ps.pod.nodeName) k = 0 ∧
      (∀ k2, k2 ≠ k → alookup c1.podStates k2 = alookup c.podStates k2 ∧
        (k2 ∈ c1.assumedPods ↔ k2 ∈ c.assumedPods)) ∧
      (∀ name k2, countKey (nodePodsAt c1 name) k2 ≤ countKey (nodePodsAt c name) k2) := by
  obtain ⟨hwf, hkeyed, hinv1, hinv4, honce, hzero⟩ := hGH
  have hmem : (k, ps) ∈ c.podStates := alookup_mem hps
  have hkey : getPodKey ps.pod = k := hkeyed (k, ps) hmem
  obtain ⟨ni, hn, hcnt1⟩ := honce (k, ps) hmem
  have hcnt1k : countKey ni.pods k = 1 := hcnt1
  have hany : ni.pods.any (fun q => getPodKey q == getPodKey ps.pod) = true := by
    rw [hkey]
    exact any_of_countKey_pos _ _ (by omega)
  have hanyk : ni.pods.any (fun q => getPodKey q == k) = true := by
    rw [← hkey]; exact hany
  obtain ⟨c2, hrm, httl, hass, hpsf, hpdb, hother, hcount, hnodup, hdisj⟩ :=
    removePod_ok_spec c ps.pod ni hn hany hwf.2.2
  have hexp : c.expirePod k ps = ({ c2 with
      assumedPods := serase c.assumedPods k,
      podStates := aerase c.podStates k }, none) := by
    simp [SchedCache.expirePod, hrm, hass, hpsf]
  have herase : (removedNI ni ps.pod).pods
      = ni.pods.eraseP (fun q => getPodKey q == k) := by
    simp [removedNI, hkey]
  have hpodsc : nodePodsAt c ps.pod.nodeName = ni.pods := by simp [nodePodsAt, hn]
  -- facts about the result record
  set c1 : SchedCache := { c2 with
      assumedPods := serase c.assumedPods k,
      podStates := aerase c.podStates k } with hc1
  have hc1nodes : c1.nodes = c2.nodes := rfl
  have hc1np : ∀ name, nodePodsAt c1 name = nodePodsAt c2 name := fun _ => rfl
  have hsermem : ∀ k2, k2 ∈ c1.assumedPods → k2 ∈ c.assumedPods ∧ k2 ≠ k := by
    intro k2 hk2
    refine ⟨mem_serase hk2, ?_⟩
    intro heq
    subst heq
    exact not_mem_serase_self k2 hwf.2.1 hk2
  have heraselk : ∀ k2, k2 ≠ k → alookup c1.podStates k2 = alookup c.podStates k2 :=
    fun k2 h => alookup_aerase_ne _ h
  have hentries : ∀ e, e ∈ c1.podStates → e ∈ c.podStates ∧ e.1 ≠ k := by
    intro e he
    have hm : e ∈ c.podStates := mem_aerase he
    refine ⟨hm, ?_⟩
    intro heq
    have hlk : alookup c1.podStates e.1 = some e.2 := by
      apply mem_alookup_nodup _ (by obtain ⟨e1, e2⟩ := e; exact he)
      exact ((akeys_aerase_sublist c.podStates k).nodup hwf.1)
    rw [heq, alookup_aerase_self _ _ hwf.1] at hlk
    exact Option.noConfusion hlk
  have hcountle : ∀ name k2,
      countKey (nodePodsAt c1 name) k2 ≤ countKey (nodePodsAt c name) k2 := by
    intro name k2
    rw [hc1np]
    by_cases hnm : name = ps.pod.nodeName
    · rw [hnm, hcount k2, herase, hpodsc]
      exact countKey_eraseKey_le _ _ _
    · have heqn : nodePodsAt c2 name = nodePodsAt c name := by
        simp [nodePodsAt, hother _ hnm]
      rw [heqn]
  refine ⟨c1, hexp, ?_, ?_, ?_, ?_, ?_, hcountle⟩
  · -- GH c1
    refine ⟨⟨?_, ?_, ?_⟩, ?_, ?_, ?_, ?_, ?_⟩
    · exact ((akeys_aerase_sublist c.podStates k).nodup hwf.1)
    · exact ((serase_sublist c.assumedPods k).nodup hwf.2.1)
    · exact hnodup
    · intro e he
      exact hkeyed e (hentries e he).1
    · intro k2 hk2
      obtain ⟨hk2mem, hk2ne⟩ := hsermem k2 hk2
      rw [heraselk k2 hk2ne]
      exact hinv1 k2 hk2mem
    · intro k2 hk2 st hst
      obtain ⟨hk2mem, hk2ne⟩ := hsermem k2 hk2
      rw [heraselk k2 hk2ne] at hst
      exact hinv4 k2 hk2mem st hst
    · intro e he
      obtain ⟨hemem, hene⟩ := hentries e he
      obtain ⟨nie, hne2, hcnte⟩ := honce e hemem
      rw [hc1nodes]
      by_cases hnm : e.2.pod.nodeName = ps.pod.nodeName
      · have hinie : nie = ni := by
          rw [hnm] at hne2
          rw [hne2] at hn
          exact Option.some_inj.1 hn
        rcases hdisj with ⟨hdel, hempty, hnode⟩ | hlive
        · exfalso
          have heq0 : countKey (removedNI ni ps.pod).pods e.1 = countKey ni.pods e.1 := by
            rw [herase]
            exact countKey_eraseKey_other _ _ _ (fun hh => hene hh.symm)
          rw [hempty] at heq0
          have hz : countKey ([] : List Pod) e.1 = 0 := by simp [countKey]
          rw [hz] at heq0
          rw [hinie] at hcnte
          omega
        · refine ⟨removedNI ni ps.pod, by rw [hnm]; exact hlive, ?_⟩
          rw [herase, countKey_eraseKey_other _ _ _ (fun hh => hene hh.symm), ← hinie]
          exact hcnte
      · refine ⟨nie, ?_, hcnte⟩
        rw [hother _ hnm]
        exact hne2
    · intro e he name ni2 hni2 hname
      obtain ⟨hemem, hene⟩ := hentries e he
      rw [hc1nodes] at hni2
      by_cases hnm : name = ps.pod.nodeName
      · rcases hdisj with ⟨hdel, hempty, hnode⟩ | hlive
        · rw [hnm, hdel] at hni2
          exact Option.noConfusion hni2
        · rw [hnm, hlive] at hni2
          have hni2eq : ni2 = removedNI ni ps.pod := Option.some_inj.1 hni2.symm
          rw [hni2eq, herase]
          have hle : countKey (ni.pods.eraseP (fun q => getPodKey q == k)) e.1
              ≤ countKey ni.pods e.1 := countKey_eraseKey_le _ _ _
          have hz : countKey ni.pods e.1 = 0 :=
            hzero e hemem ps.pod.nodeName ni hn (by rw [← hnm]; exact hname)
          omega
      · rw [hother _ hnm] at hni2
        exact hzero e hemem name ni2 hni2 hname
  · intro hmem2
    exact not_mem_serase_self k hwf.2.1 hmem2
  · exact alookup_aerase_self _ _ hwf.1
  · rw [hc1np, hcount k, herase]
    have hself := countKey_eraseKey_self ni.pods k hanyk
    omega
  · intro k2 hk2ne
    exact ⟨heraselk k2 hk2ne, mem_serase_iff_of_ne hk2ne⟩

/-- The per-key guarantees of one reaper pass over a snapshot `ks` of the
assumed keys. -/
theorem cleanupLoop_spec (now : Int) :
    ∀ (ks : List String) (c : SchedCache),
      GH c → ks.Nodup → (∀ k ∈ ks, k ∈ c.assumedPods) →
      ∃ c', SchedCache.cleanupLoop now c ks = .ok c' ∧
        GH c' ∧
        (∀ k, k ∉ ks → alookup c'.podStates k = alookup c.podStates k ∧
            (k ∈ c'.assumedPods ↔ k ∈ c.assumedPods)) ∧
        (∀ name k2, countKey (nodePodsAt c' name) k2 ≤ countKey (nodePodsAt c name) k2) ∧
        (∀ k ∈ ks, ∀ st, alookup c.podStates k = some st →
          ((st.bindingFinished = false →
            alookup c'.podStates k = some st ∧ k ∈ c'.assumedPods) ∧
          (∀ d, st.deadline = some d → st.bindingFinished = true → now > d →
            k ∉ c'.assumedPods ∧ alookup c'.podStates k = none ∧
            countKey (nodePodsAt c' st.pod.nodeName) k = 0) ∧
          (∀ d, st.deadline = some d → st.bindingFinished = true → ¬(now > d) →
            alookup c'.podStates k = some st ∧ k ∈ c'.assumedPods))) := by
  intro ks
  induction ks with
  | nil =>
    intro c hGH hnd hass
    exact ⟨c, rfl, hGH, fun k _ => ⟨rfl, Iff.rfl⟩, fun _ _ => le_refl _,
      fun k hk => absurd hk (by simp)⟩
  | cons k ks ih =>
    intro c hGH hnd hass
    have hknotin : k ∉ ks := (List.nodup_cons.1 hnd).1
    have hndks : ks.Nodup := (List.nodup_cons.1 hnd).2
    have hk : k ∈ c.assumedPods := hass k (List.mem_cons_self _ _)
    have hsome : (alookup c.podStates k).isSome := hGH.2.2.1 k hk
    obtain ⟨ps, hps⟩ := Option.isSome_iff_exists.1 hsome
    by_cases hbf : ps.bindingFinished = false
    · -- binding still in flight: skip
      have hloopeq : SchedCache.cleanupLoop now c (k :: ks)
          = SchedCache.cleanupLoop now c ks := by
        simp only [SchedCache.cleanupLoop, hps]
        rw [if_pos hbf]
      obtain ⟨c', hloop, hGH', hframe, hcounts, hks⟩ :=
        ih c hGH hndks (fun k2 hk2 => hass k2 (List.mem_cons_of_mem _ hk2))
      refine ⟨c', by rw [hloopeq]; exact hloop, hGH', ?_, hcounts, ?_⟩
      · intro k2 hk2
        exact hframe k2 (fun hh => hk2 (List.mem_cons_of_mem _ hh))
      · intro k2 hk2 st hst
        rcases List.mem_cons.1 hk2 with hk2 | hk2
        · subst hk2
          have hstps : st = ps := by
            rw [hps] at hst
            exact Option.some_inj.1 hst.symm
          subst hstps
          refine ⟨?_, ?_, ?_⟩
          · intro
            obtain ⟨hf1, hf2⟩ := hframe k2 hknotin
            exact ⟨by rw [hf1]; exact hps, hf2.2 hk⟩
          · intro d hd hbf2
            rw [hbf2] at hbf
            exact Bool.noConfusion hbf
          · intro d hd hbf2
            rw [hbf2] at hbf
            exact Bool.noConfusion hbf
        · exact hks k2 hk2 st hst
    · -- binding finished
      have hbfT : ps.bindingFinished = true := by
        cases hb : ps.bindingFinished with
        | false => exact absurd hb hbf
        | true => rfl
      have hdl : ps.deadline.isSome := hGH.2.2.2.1 k hk ps hps hbfT
      obtain ⟨d, hd⟩ := Option.isSome_iff_exists.1 hdl
      by_cases hgt : now > d
      · -- expired: evict
        obtain ⟨c1, hexp, hGH1, hkno, hknone, hcnt0, hfr1, hle1⟩ :=
          expirePod_step c k ps hGH hk hps
        have hloopeq : SchedCache.cleanupLoop now c (k :: ks)
            = SchedCache.cleanupLoop now c1 ks := by
          simp only [SchedCache.cleanupLoop, hps]
          rw [if_neg (by rw [hbfT]; exact fun hh => Bool.noConfusion hh)]
          simp only [hd]
          rw [if_pos hgt, hexp]
        obtain ⟨c', hloop, hGH', hframe, hcounts, hks⟩ :=
          ih c1 hGH1 hndks (fun k2 hk2 => by
            have hne : k2 ≠ k := fun hh => hknotin (hh ▸ hk2)
            exact (hfr1 k2 hne).2.2 (hass k2 (List.mem_cons_of_mem _ hk2)))
        refine ⟨c', by rw [hloopeq]; exact hloop, hGH', ?_, ?_, ?_⟩
        · intro k2 hk2
          have hne : k2 ≠ k := fun hh => hk2 (hh ▸ List.mem_cons_self _ _)
          have hnotks : k2 ∉ ks := fun hh => hk2 (List.mem_cons_of_mem _ hh)
          obtain ⟨hf1, hf2⟩ := hframe k2 hnotks
          obtain ⟨hg1, hg2⟩ := hfr1 k2 hne
          exact ⟨hf1.trans hg1, hf2.trans hg2⟩
        · intro name k2
          exact le_trans (hcounts name k2) (hle1 name k2)
        · intro k2 hk2 st hst
          rcases List.mem_cons.1 hk2 with hk2 | hk2
          · subst hk2
            have hstps : st = ps := by
              rw [hps] at hst
              exact Option.some_inj.1 hst.symm
            subst hstps
            refine ⟨?_, ?_, ?_⟩
            · intro hf
              rw [hf] at hbfT
              exact Bool.noConfusion hbfT
            · intro d2 hd2 hbf2 hgt2
              obtain ⟨hf1, hf2⟩ := hframe k2 hknotin
              refine ⟨fun hmem => hkno (hf2.1 hmem), by rw [hf1]; exact hknone, ?_⟩
              have hle := hcounts st.pod.nodeName k2
              omega
            · intro d2 hd2 hbf2 hngt
              rw [hd] at hd2
              have : d = d2 := Option.some_inj.1 hd2
              subst this
              exact absurd hgt hngt
          · have hne : k2 ≠ k := fun hh => hknotin (hh ▸ hk2)
            have hst1 : alookup c1.podStates k2 = some st := by
              rw [(hfr1 k2 hne).1]
              exact hst
            exact hks k2 hk2 st hst1
      · -- deadline not yet passed: skip
        have hloopeq : SchedCache.cleanupLoop now c (k :: ks)
            = SchedCache.cleanupLoop now c ks := by
          simp only [SchedCache.cleanupLoop, hps]
          rw [if_neg (by rw [hbfT]; exact fun hh => Bool.noConfusion hh)]
          simp only [hd]
          rw [if_neg hgt]
        obtain ⟨c', hloop, hGH', hframe, hcounts, hks⟩ :=
          ih c hGH hndks (fun k2 hk2 => hass k2 (List.mem_cons_of_mem _ hk2))
        refine ⟨c', by rw [hloopeq]; exact hloop, hGH', ?_, hcounts, ?_⟩
        · intro k2 hk2
          exact hframe k2 (fun hh => hk2 (List.mem_cons_of_mem _ hh))
        · intro k2 hk2 st hst
          rcases List.mem_cons.1 hk2 with hk2 | hk2
          · subst hk2
            have hstps : st = ps := by
              rw [hps] at hst
              exact Option.some_inj.1 hst.symm
            subst hstps
            refine ⟨?_, ?_, ?_⟩
            · intro hf
              rw [hf] at hbfT
              exact Bool.noConfusion hbfT
            · intro d2 hd2 hbf2 hgt2
              rw [hd] at hd2
              have : d = d2 := Option.some_inj.1 hd2
              subst this
              exact absurd hgt2 hgt
            · intro d2 hd2 hbf2 hngt
              obtain ⟨hf1, hf2⟩ := hframe k2 hknotin
              exact ⟨by rw [hf1]; exact hps, hf2.2 hk⟩
          · exact hks k2 hk2 st hst

/-! ### C6 -/

/-- Decidable form of the global hypotheses (used to discharge them on
concrete caches). -/
def GHd (c : SchedCache) : Prop :=
  ((akeys c.podStates).Nodup ∧ c.assumedPods.Nodup ∧ (akeys c.nodes).Nodup) ∧
  (∀ e ∈ c.podStates, getPodKey e.2.pod = e.1) ∧
  (∀ k ∈ c.assumedPods, (alookup c.podStates k).isSome) ∧
  (∀ k ∈ c.assumedPods, ∀ e ∈ c.podStates, e.1 = k →
    e.2.bindingFinished = true → e.2.deadline.isSome) ∧
  (∀ e ∈ c.podStates, (alookup c.nodes e.2.pod.nodeName).isSome ∧
    countKey (nodePodsAt c e.2.pod.nodeName) e.1 = 1) ∧
  (∀ e ∈ c.podStates, ∀ en ∈ c.nodes, en.1 ≠ e.2.pod.nodeName →
    countKey en.2.pods e.1 = 0)

theorem GH_of_GHd (c : SchedCache) (h : GHd c) : GH c := by
  obtain ⟨hwf, hkeyed, hinv1, hinv4, honce, hzero⟩ := h
  refine ⟨hwf, hkeyed, hinv1, ?_, ?_, ?_⟩
  · intro k hk st hst
    exact hinv4 k hk (k, st) (alookup_mem hst) rfl
  · intro e he
    obtain ⟨hs, hcnt⟩ := honce e he
    obtain ⟨ni, hn⟩ := Option.isSome_iff_exists.1 hs
    refine ⟨ni, hn, ?_⟩
    rw [show nodePodsAt c e.2.pod.nodeName = ni.pods by simp [nodePodsAt, hn]] at hcnt
    exact hcnt
  · intro e he name ni hni hname
    exact hzero e he (name, ni) (alookup_mem hni) hname

/-- C6: at a reaper tick at time `now`, under the cache's invariants, the
tick succeeds and for every assumed key: an entry whose binding is not
finished is left untouched; an entry whose binding is finished and whose
deadline lies strictly in the past is removed from its node's accounting and
deleted from both `assumedPods` and `podStates`; an entry whose deadline has
not yet passed is never evicted. -/
theorem cleanupAssumedPods_spec (c : SchedCache) (now : Int) (hGH : GH c) :
    ∃ c', c.cleanupAssumedPods now = .ok c' ∧
      (∀ k ∈ c.assumedPods, ∀ st, alookup c.podStates k = some st →
        ((st.bindingFinished = false →
          alookup c'.podStates k = some st ∧ k ∈ c'.assumedPods) ∧
        (∀ d, st.deadline = some d → st.bindingFinished = true → now > d →
          k ∉ c'.assumedPods ∧ alookup c'.podStates k = none ∧
          countKey (nodePodsAt c' st.pod.nodeName) k = 0) ∧
        (∀ d, st.deadline = some d → st.bindingFinished = true → ¬(now > d) →
          alookup c'.podStates k = some st ∧ k ∈ c'.assumedPods))) := by
  obtain ⟨c', hloop, hGH', hframe, hcounts, hks⟩ :=
    cleanupLoop_spec now c.assumedPods c hGH hGH.1.2.1 (fun k hk => hk)
  exact ⟨c', hloop, hks⟩

/-- Fixture for the C6 witness: three assumed workloads on one node — one
with binding unfinished, one expired, one not yet expired. -/
def wPodB : Pod := { wPodA with name := "b" }

def wPodC : Pod := { wPodA with name := "c" }

def cReaper : SchedCache :=
  { ttl := 10,
    assumedPods := ["d/a", "d/b", "d/c"],
    podStates := [("d/a", ⟨wPodA, none, false⟩),
                  ("d/b", ⟨wPodB, some 5, true⟩),
                  ("d/c", ⟨wPodC, some 30, true⟩)],
    nodes := [("n1", ((NewNodeInfo.AddPod wPodA).AddPod wPodB).AddPod wPodC)],
    pdbs := [] }

/-- Witness for C6 at time 15: a is skipped, b is evicted, c is kept. -/
theorem cleanupAssumedPods_spec_witness :
    GHd cReaper ∧
    (∃ c', cReaper.cleanupAssumedPods 15 = .ok c' ∧
      (∀ k ∈ cReaper.assumedPods, ∀ st, alookup cReaper.podStates k = some st →
        ((st.bindingFinished = false →
          alookup c'.podStates k = some st ∧ k ∈ c'.assumedPods) ∧
        (∀ d, st.deadline = some d → st.bindingFinished = true → (15 : Int) > d →
          k ∉ c'.assumedPods ∧ alookup c'.podStates k = none ∧
          countKey (nodePodsAt c' st.pod.nodeName) k = 0) ∧
        (∀ d, st.deadline = some d → st.bindingFinished = true → ¬((15 : Int) > d) →
          alookup c'.podStates k = some st ∧ k ∈ c'.assumedPods)))) :=
  ⟨by unfold GHd; decide, cleanupAssumedPods_spec cReaper 15
    (GH_of_GHd cReaper (by unfold GHd; decide))⟩

/-! ### C9 -/

theorem rollback_pod_rr (c : SchedCache) (o np : Pod) (c' : SchedCache) (p' : Pod)
    (h : c.rollbackPodResources o np = .ok (c', p')) :
    p'.resizeResources = np.resizeResources := by
  simp only [SchedCache.rollbackPodResources] at h
  cases hst : alookup c.podStates (getPodKey o) with
  | none => simp only [hst] at h; exact Except.noConfusion h
  | some st =>
    simp only [hst] at h
    cases hrr : np.resizeResources with
    | none => simp only [hrr] at h; exact Except.noConfusion h
    | some rr =>
      simp only [hrr] at h
      cases hrs : rollbackStep rr.rollback np.containers st.pod.containers with
      | error e => simp only [hrs] at h; exact Except.noConfusion h
      | ok r =>
        simp only [hrs] at h
        injection h with hpair
        injection hpair with hc hp
        rw [← hp]

/-- The incoming pod's resize `Request` survives the resize-status
processing step unchanged. -/
theorem status_request_eq (c : SchedCache) (o np : Pod) (c1 : SchedCache) (np1 : Pod)
    (h : c.processPodResizeStatus o np = .ok (c1, np1)) :
    np1.resizeResources.map ResizeResources.request
      = np.resizeResources.map ResizeResources.request := by
  simp only [SchedCache.processPodResizeStatus] at h
  cases hfind : np.conditions.find? isResizeStatusCond with
  | none =>
    simp only [hfind] at h
    injection h with hpair
    injection hpair with hc hp
    rw [← hp]
  | some cond =>
    simp only [hfind] at h
    cases hrr : np.resizeResources with
    | none => simp only [hrr] at h; exact Except.noConfusion h
    | some rr =>
      simp only [hrr] at h
      by_cases hmsg : cond.message = rr.actionVersion
      · rw [if_pos hmsg] at h
        by_cases hrb : cond.status = CondStatus.condFalse ∧ rr.rollback ≠ []
        · rw [if_pos hrb] at h
          cases hro : c.rollbackPodResources o np with
          | error e => simp only [hro] at h; exact Except.noConfusion h
          | ok r =>
            simp only [hro] at h
            have hrr2 : r.2.resizeResources = some rr := by
              rw [rollback_pod_rr c o np r.1 r.2 (by rw [hro]), hrr]
            rw [hrr2] at h
            simp only [] at h
            injection h with hpair
            injection hpair with hc hp
            rw [← hp]
            simp
        · rw [if_neg hrb] at h
          simp only [hrr] at h
          injection h with hpair
          injection hpair with hc hp
          rw [← hp]
          simp
      · rw [if_neg hmsg] at h
        injection h with hpair
        injection hpair with hc hp
        rw [← hp, hrr]

/-- The committed pod's resize `Request` equals the incoming pod's (the
commit stamps action fields only). -/
theorem setup_request_eq (c : SchedCache) (o np : Pod) (rmap : List (String × Container))
    (c' : SchedCache) (p' : Pod)
    (h : c.setupInPlaceResizeAction o np rmap = .ok (c', p')) :
    p'.resizeResources.map ResizeResources.request
      = np.resizeResources.map ResizeResources.request := by
  simp only [SchedCache.setupInPlaceResizeAction] at h
  cases hst : alookup c.podStates (getPodKey o) with
  | none => simp only [hst] at h; exact Except.noConfusion h
  | some st =>
    simp only [hst] at h
    cases hcs : commitStep rmap np.containers st.pod.containers with
    | error e => simp only [hcs] at h; exact Except.noConfusion h
    | ok r =>
      simp only [hcs] at h
      cases hrr : np.resizeResources with
      | none => simp only [hrr] at h; exact Except.noConfusion h
      | some rr =>
        simp only [hrr] at h
        injection h with hpair
        injection hpair with hc hp
        rw [← hp]
        simp

/-- C9: whenever the resize decision engine runs on a pod whose resize
request is non-empty and parses successfully, the request is cleared before
the capacity check, so it is nil after the call in every outcome (restart,
in-place update, none-per-policy, none-per-PDB-violation and reschedule
alike). -/
theorem scaling_clears_request (c : SchedCache) (o np : Pod) (node : NodeInfo)
    (rr : ResizeResources) (c1 : SchedCache) (np1 : Pod)
    (rmap : List (String × Container)) (prosp : Resource)
    (hn : alookup c.nodes np.nodeName = some node)
    (hrr : np.resizeResources = some rr)
    (hreq : rr.request ≠ [])
    (hstat : c.processPodResizeStatus o np = .ok (c1, np1))
    (hparse : getPodResizeRequirements np1 = .ok (rmap, prosp)) :
    ((c.processPodResourcesScaling o np).2.1).resizeResources.map ResizeResources.request
      = some [] := by
  have hr1 : np1.resizeResources.map ResizeResources.request = some rr.request := by
    rw [status_request_eq c o np c1 np1 hstat, hrr]
    rfl
  obtain ⟨rr1, hrr1⟩ : ∃ rr1, np1.resizeResources = some rr1 := by
    cases hx : np1.resizeResources with
    | none => rw [hx] at hr1; simp at hr1
    | some y => exact ⟨y, rfl⟩
  have hreq1 : rr1.request = rr.request := by
    rw [hrr1] at hr1
    simpa using hr1
  simp only [SchedCache.processPodResourcesScaling, hn, hstat, hrr1]
  rw [if_pos (by
    rw [hreq1]
    intro hh
    exact hreq (List.length_eq_zero.1 hh))]
  by_cases hpol : (if np.resizeResourcesPolicy = ResizePolicy.unset then
      ResizePolicy.inPlacePreferred else np.resizeResourcesPolicy) = ResizePolicy.restart
  · rw [if_pos hpol]
    simp [Pod.withRR]
  · rw [if_neg hpol]
    simp only [hparse]
    by_cases hcap : node.allocatableResource.milliCPU
        > prosp.milliCPU + node.requestedResource.milliCPU ∧
        node.allocatableResource.memory > prosp.memory + node.requestedResource.memory
    · rw [if_pos hcap]
      cases hsetup : c1.setupInPlaceResizeAction o
          (np1.withRR { rr1 with request := [] }) rmap with
      | error e =>
        simp only [hsetup]
        simp [Pod.withRR]
      | ok r2 =>
        simp only [hsetup]
        obtain ⟨c2, np3⟩ := r2
        show np3.resizeResources.map ResizeResources.request = some []
        rw [setup_request_eq c1 o _ _ c2 np3 hsetup]
        simp [Pod.withRR]
    · rw [if_neg hcap]
      by_cases hipo : (if np.resizeResourcesPolicy = ResizePolicy.unset then
          ResizePolicy.inPlacePreferred else np.resizeResourcesPolicy)
          = ResizePolicy.inPlaceOnly
      · rw [if_pos hipo]
        simp [Pod.withRR]
      · rw [if_neg hipo]
        split
        · split
          · simp [Pod.withRR]
          · split
            · simp [Pod.withRR]
            · simp [Pod.withRR]
        · simp [Pod.withRR]

/-- Fixture for the C9/C4/C7 witnesses: a tracked node with a known
allocatable and a resize request that exceeds capacity. -/
def cC9 : SchedCache :=
  { ttl := 10, assumedPods := [], podStates := [],
    nodes := [("n1", NewNodeInfo.SetNode wNode1)], pdbs := [] }

def rrBig : ResizeResources :=
  ⟨[⟨"c1", .entries (some 2500) none, .entries none none⟩], "v0", .unset, []⟩

def wPodR : Pod :=
  { ns := "d", name := "r", nodeName := "n1", resourceVersion := "v2",
    labels := [], containers := [⟨"c1", .entries (some 500) (some 1024), .entries none none⟩],
    phase := .running, deletionTimestamp := none, conditions := [],
    resizeResourcesPolicy := .unset, resizeResources := some rrBig }

def rmapR : List (String × Container) :=
  [("c1", ⟨"c1", .entries (some 2500) none, .entries none none⟩)]

/-- Witness for C9 on the concrete over-capacity resize. -/
theorem scaling_clears_request_witness :
    (alookup cC9.nodes wPodR.nodeName = some (NewNodeInfo.SetNode wNode1) ∧
     wPodR.resizeResources = some rrBig ∧
     rrBig.request ≠ [] ∧
     cC9.processPodResizeStatus wPodR wPodR = .ok (cC9, wPodR) ∧
     getPodResizeRequirements wPodR = .ok (rmapR, ⟨2500, 1024⟩)) ∧
    ((cC9.processPodResourcesScaling wPodR wPodR).2.1).resizeResources.map
        ResizeResources.request = some [] :=
  ⟨⟨by decide, by decide, by decide, by rfl, by rfl⟩,
   scaling_clears_request cC9 wPodR wPodR (NewNodeInfo.SetNode wNode1) rrBig cC9 wPodR
     rmapR ⟨2500, 1024⟩ (by decide) (by decide) (by decide) (by rfl) (by rfl)⟩

/-! ### C4 -/

/-- Relation between an incoming container and its committed form: a
container not named by the resize map is unchanged; a named one keeps its
name and has the resize's requests and limits upserted. -/
def commitRel (rmap : List (String × Container)) (n n' : Container) : Prop :=
  match alookup rmap n.name with
  | none => n' = n
  | some rc => n'.name = n.name ∧
      ResourceList.upsertAll n.requests rc.requests = .ok n'.requests ∧
      ResourceList.upsertAll n.limits rc.limits = .ok n'.limits

/-- The rollback records saved by a commit: the pre-commit resources of
exactly the containers named by the resize map, in container order. -/
def rollbackRecords (rmap : List (String × Container)) (ns : List Container) :
    List ContainerResources :=
  ns.filterMap (fun n => if (alookup rmap n.name).isSome then
    some ⟨n.name, n.requests, n.limits⟩ else none)

theorem commitStep_sound (rmap : List (String × Container)) :
    ∀ (ns cs : List Container) (ns' cs' : List Container)
      (rbs : List ContainerResources),
      commitStep rmap ns cs = .ok (ns', cs', rbs) →
      rbs = rollbackRecords rmap ns ∧ List.Forall₂ (commitRel rmap) ns ns' := by
  intro ns
  induction ns with
  | nil =>
    intro cs ns' cs' rbs h
    simp only [commitStep] at h
    injection h with hpair
    injection hpair with h1 hrest
    injection hrest with h2 h3
    subst h1
    subst h3
    exact ⟨rfl, List.Forall₂.nil⟩
  | cons n ns ih =>
    intro cs ns' cs' rbs h
    simp only [commitStep] at h
    cases hlk : alookup rmap n.name with
    | none =>
      simp only [hlk] at h
      have hrel : commitRel rmap n n := by simp [commitRel, hlk]
      cases cs with
      | nil =>
        cases hrec : commitStep rmap ns [] with
        | error e => simp only [hrec] at h; exact Except.noConfusion h
        | ok r =>
          simp only [hrec] at h
          injection h with hpair
          injection hpair with h1 hrest
          injection hrest with h2 h3
          obtain ⟨hr1, hr2⟩ := ih [] r.1 r.2.1 r.2.2 (by rw [hrec])
          subst h3
          refine ⟨by rw [hr1]; simp [rollbackRecords, hlk], ?_⟩
          rw [← h1]
          exact List.Forall₂.cons hrel hr2
      | cons ch ct =>
        cases hrec : commitStep rmap ns ct with
        | error e => simp only [hrec] at h; exact Except.noConfusion h
        | ok r =>
          simp only [hrec] at h
          injection h with hpair
          injection hpair with h1 hrest
          injection hrest with h2 h3
          obtain ⟨hr1, hr2⟩ := ih ct r.1 r.2.1 r.2.2 (by rw [hrec])
          subst h3
          refine ⟨by rw [hr1]; simp [rollbackRecords, hlk], ?_⟩
          rw [← h1]
          exact List.Forall₂.cons hrel hr2
    | some rc =>
      simp only [hlk] at h
      cases hur : ResourceList.upsertAll n.requests rc.requests with
      | error e => simp only [hur] at h; exact Except.noConfusion h
      | ok nreq =>
        simp only [hur] at h
        cases hul : ResourceList.upsertAll n.limits rc.limits with
        | error e => simp only [hul] at h; exact Except.noConfusion h
        | ok nlim =>
          simp only [hul] at h
          have hrel : commitRel rmap n { n with requests := nreq, limits := nlim } := by
            simp only [commitRel, hlk]
            exact ⟨by simp, by rw [hur], by rw [hul]⟩
          by_cases hw : (rc.requests.hasEntries || rc.limits.hasEntries) = true
          · rw [if_pos hw] at h
            cases cs with
            | nil => exact Except.noConfusion h
            | cons ch ct =>
              cases hcr : ResourceList.upsertAll ch.requests rc.requests with
              | error e => simp only [hcr] at h; exact Except.noConfusion h
              | ok creq =>
                simp only [hcr] at h
                cases hcl : ResourceList.upsertAll ch.limits rc.limits with
                | error e => simp only [hcl] at h; exact Except.noConfusion h
                | ok clim =>
                  simp only [hcl] at h
                  cases hrec : commitStep rmap ns ct with
                  | error e => simp only [hrec] at h; exact Except.noConfusion h
                  | ok r =>
                    simp only [hrec] at h
                    injection h with hpair
                    injection hpair with h1 hrest
                    injection hrest with h2 h3
                    obtain ⟨hr1, hr2⟩ := ih ct r.1 r.2.1 r.2.2 (by rw [hrec])
                    subst h3
                    refine ⟨by rw [hr1]; simp [rollbackRecords, hlk], ?_⟩
                    rw [← h1]
                    exact List.Forall₂.cons hrel hr2
          · rw [if_neg hw] at h
            cases cs with
            | nil =>
              cases hrec : commitStep rmap ns [] with
              | error e => simp only [hrec] at h; exact Except.noConfusion h
              | ok r =>
                simp only [hrec] at h
                injection h with hpair
                injection hpair with h1 hrest
                injection hrest with h2 h3
                obtain ⟨hr1, hr2⟩ := ih [] r.1 r.2.1 r.2.2 (by rw [hrec])
                subst h3
                refine ⟨by rw [hr1]; simp [rollbackRecords, hlk], ?_⟩
                rw [← h1]
                exact List.Forall₂.cons hrel hr2
            | cons ch ct =>
              cases hrec : commitStep rmap ns ct with
              | error e => simp only [hrec] at h; exact Except.noConfusion h
              | ok r =>
                simp only [hrec] at h
                injection h with hpair
                injection hpair with h1 hrest
                injection hrest with h2 h3
                obtain ⟨hr1, hr2⟩ := ih ct r.1 r.2.1 r.2.2 (by rw [hrec])
                subst h3
                refine ⟨by rw [hr1]; simp [rollbackRecords, hlk], ?_⟩
                rw [← h1]
                exact List.Forall₂.cons hrel hr2

/-- The capacity condition of the in-place commit: the node's allocatable
strictly exceeds the already-requested amount plus the prospective aggregate
on both dimensions. -/
def capacityOK (node : NodeInfo) (prosp : Resource) : Prop :=
  node.allocatableResource.milliCPU > prosp.milliCPU + node.requestedResource.milliCPU ∧
  node.allocatableResource.memory > prosp.memory + node.requestedResource.memory

/-- C4 (amended): provided the prior-resize status-processing step does not
fire, for a non-restart policy the resize is committed in place exactly when
the capacity condition holds on both CPU and memory; in that case the named
containers' requests and limits are overlaid on both the incoming and the
cached pod, per-container rollback records are saved and the action is
stamped Update; when the capacity condition fails and the policy is
InPlaceOnly, the action is stamped NonePerPolicy and the pod's containers
are left unchanged. -/
theorem resize_commit_iff_capacity (c : SchedCache) (o np : Pod) (node : NodeInfo)
    (rr : ResizeResources) (rmap : List (String × Container)) (prosp : Resource)
    (st : PodState) (ncs ccs : List Container) (rbs : List ContainerResources)
    (hn : alookup c.nodes np.nodeName = some node)
    (hrr : np.resizeResources = some rr)
    (hreq : rr.request ≠ [])
    (hnostat : np.conditions.find? isResizeStatusCond = none)
    (hparse : getPodResizeRequirements np = .ok (rmap, prosp))
    (hpol : np.resizeResourcesPolicy ≠ ResizePolicy.restart)
    (hst : alookup c.podStates (getPodKey o) = some st)
    (hcommit : commitStep rmap np.containers st.pod.containers = .ok (ncs, ccs, rbs)) :
    (((c.processPodResourcesScaling o np).2.2 = none ∧
        ((c.processPodResourcesScaling o np).2.1).resizeResources.map
          ResizeResources.action = some ResizeAction.update) ↔ capacityOK node prosp) ∧
    (capacityOK node prosp →
      ((c.processPodResourcesScaling o np).2.1).containers = ncs ∧
      ((c.processPodResourcesScaling o np).2.1).resizeResources
        = some ⟨[], np.resourceVersion, ResizeAction.update, rbs⟩ ∧
      alookup ((c.processPodResourcesScaling o np).1).podStates (getPodKey o)
        = some (rbState st ccs) ∧
      rbs = rollbackRecords rmap np.containers ∧
      List.Forall₂ (commitRel rmap) np.containers ncs) ∧
    (¬ capacityOK node prosp → np.resizeResourcesPolicy = ResizePolicy.inPlaceOnly →
      ((c.processPodResourcesScaling o np).1 = c ∧
       (c.processPodResourcesScaling o np).2.2 = none ∧
       ((c.processPodResourcesScaling o np).2.1).containers = np.containers ∧
       ((c.processPodResourcesScaling o np).2.1).resizeResources
         = some ⟨[], np.resourceVersion, ResizeAction.nonePerPolicy, rr.rollback⟩)) := by
  have hstat : c.processPodResizeStatus o np = .ok (c, np) := by
    simp [SchedCache.processPodResizeStatus, hnostat]
  have hpol2 : (if np.resizeResourcesPolicy = ResizePolicy.unset then
      ResizePolicy.inPlacePreferred else np.resizeResourcesPolicy)
      ≠ ResizePolicy.restart := by
    by_cases hu : np.resizeResourcesPolicy = ResizePolicy.unset
    · simp [hu]
    · simp only [if_neg hu]
      exact hpol
  have hlen : rr.request.length ≠ 0 := fun hh => hreq (List.length_eq_zero.1 hh)
  by_cases hcap : capacityOK node prosp
  · have hsetup : c.setupInPlaceResizeAction o (np.withRR { rr with request := [] }) rmap
        = .ok ({ c with podStates := ainsert c.podStates (getPodKey o) (rbState st ccs) },
               { np with
                 containers := ncs,
                 resizeResources := some ⟨[], np.resourceVersion, ResizeAction.update, rbs⟩ }) := by
      simp only [SchedCache.setupInPlaceResizeAction, Pod.withRR, hst]
      simp only [hcommit]
      rfl
    have hR : c.processPodResourcesScaling o np
        = ({ c with podStates := ainsert c.podStates (getPodKey o) (rbState st ccs) },
           { np with
             containers := ncs,
             resizeResources := some ⟨[], np.resourceVersion, ResizeAction.update, rbs⟩ },
           none) := by
      simp only [SchedCache.processPodResourcesScaling, hn, hstat, hrr]
      rw [if_pos hlen, if_neg hpol2]
      simp only [hparse]
      rw [if_pos (show _ ∧ _ from hcap)]
      simp only [hsetup]
    refine ⟨?_, ?_, ?_⟩
    · constructor
      · intro
        exact hcap
      · intro
        constructor
        · rw [hR]
        · rw [hR]
          simp
    · intro
      obtain ⟨hrb, hfa⟩ := commitStep_sound rmap np.containers st.pod.containers ncs ccs rbs hcommit
      rw [hR]
      exact ⟨rfl, rfl, by simp [alookup_ainsert_self], hrb, hfa⟩
    · intro hncap
      exact absurd hcap hncap
  · have hnotupd : ¬ ((c.processPodResourcesScaling o np).2.2 = none ∧
        ((c.processPodResourcesScaling o np).2.1).resizeResources.map
          ResizeResources.action = some ResizeAction.update) := by
      simp only [SchedCache.processPodResourcesScaling, hn, hstat, hrr]
      rw [if_pos hlen, if_neg hpol2]
      simp only [hparse]
      rw [if_neg (show ¬ (_ ∧ _) from hcap)]
      repeat' split
      all_goals simp [Pod.withRR]
    refine ⟨?_, ?_, ?_⟩
    · constructor
      · intro hu
        exact absurd hu hnotupd
      · intro hcap2
        exact absurd hcap2 hcap
    · intro hcap2
      exact absurd hcap2 hcap
    · intro hncap hlpo
      have heff : (if np.resizeResourcesPolicy = ResizePolicy.unset then
          ResizePolicy.inPlacePreferred else np.resizeResourcesPolicy)
          = ResizePolicy.inPlaceOnly := by
        rw [hlpo]
        simp
      have hR : c.processPodResourcesScaling o np
          = (c, np.withRR { rr with
              request := [],
              actionVersion := np.resourceVersion,
              action := ResizeAction.nonePerPolicy }, none) := by
        simp only [SchedCache.processPodResourcesScaling, hn, hstat, hrr]
        rw [if_pos hlen, if_neg hpol2]
        simp only [hparse]
        rw [if_neg (show ¬ (_ ∧ _) from hcap), if_pos heff]
        simp [Pod.withRR]
      rw [hR]
      exact ⟨rfl, rfl, by simp [Pod.withRR], by simp [Pod.withRR]⟩

/-- The cached pod of the C4 counterexample. -/
def oldPX : Pod :=
  { ns := "d", name := "x", nodeName := "n1", resourceVersion := "v1",
    labels := [], containers := [⟨"c1", .entries (some 500) (some 1024), .entries none none⟩],
    phase := .running, deletionTimestamp := none, conditions := [],
    resizeResourcesPolicy := .unset, resizeResources := none }

/-- The incoming pod of the C4 counterexample: policy InPlaceOnly, an
over-capacity resize request, and a failed-status condition matching the
last action version with a saved rollback record. -/
def newPX : Pod :=
  { ns := "d", name := "x", nodeName := "n1", resourceVersion := "v2",
    labels := [], containers := [⟨"c1", .entries (some 500) (some 1024), .entries none none⟩],
    phase := .running, deletionTimestamp := none,
    conditions := [⟨podResourcesResizeStatusType, .condFalse, "v1"⟩],
    resizeResourcesPolicy := .inPlaceOnly,
    resizeResources := some ⟨[⟨"c1", .entries (some 2500) none, .entries none none⟩],
      "v1", .update, [⟨"c1", .entries (some 123) none, .nilRL⟩]⟩ }

def cC4 : SchedCache :=
  { ttl := 10, assumedPods := [],
    podStates := [("d/x", ⟨oldPX, none, false⟩)],
    nodes := [("n1", NewNodeInfo.SetNode wNode1)], pdbs := [] }

/-- Counterexample to C4 as stated: with policy InPlaceOnly and the capacity
check failing, the engine stamps NonePerPolicy — but the pod's container
requests do *not* stay unchanged, because the status-processing step first
rolled them back. -/
theorem resize_claim_counterexample :
    newPX.resizeResourcesPolicy = ResizePolicy.inPlaceOnly ∧
    (((cC4.processPodResourcesScaling oldPX newPX).2.1).resizeResources.map
        ResizeResources.action = some ResizeAction.nonePerPolicy) ∧
    ((cC4.processPodResourcesScaling oldPX newPX).2.1).containers.map Container.requests
      ≠ newPX.containers.map Container.requests := by
  refine ⟨by decide, by decide, by decide⟩

/-- The commit fixture for the C4 witness (scenario S4 of the spec). -/
def oldPB : Pod :=
  { ns := "d", name := "b", nodeName := "n1", resourceVersion := "v1",
    labels := [], containers := [⟨"c1", .entries (some 500) (some 1024), .entries none none⟩],
    phase := .running, deletionTimestamp := none, conditions := [],
    resizeResourcesPolicy := .unset, resizeResources := none }

def newPB : Pod :=
  { ns := "d", name := "b", nodeName := "n1", resourceVersion := "v2",
    labels := [], containers := [⟨"c1", .entries (some 500) (some 1024), .entries none none⟩],
    phase := .running, deletionTimestamp := none, conditions := [],
    resizeResourcesPolicy := .unset,
    resizeResources := some ⟨[⟨"c1", .entries (some 800) (some 1536), .entries none none⟩],
      "v0", .unset, []⟩ }

def cB : SchedCache :=
  { ttl := 10, assumedPods := [],
    podStates := [("d/b", ⟨oldPB, none, false⟩)],
    nodes := [("n1", (NewNodeInfo.SetNode wNode1).AddPod oldPB)], pdbs := [] }

def rmapB : List (String × Container) :=
  [("c1", ⟨"c1", .entries (some 800) (some 1536), .entries none none⟩)]

def ncsB : List Container := [⟨"c1", .entries (some 800) (some 1536), .entries none none⟩]

def rbsB : List ContainerResources :=
  [⟨"c1", .entries (some 500) (some 1024), .entries none none⟩]

/-- Witness for C4 on the concrete in-place commit (S4). -/
theorem resize_commit_iff_capacity_witness :
    (alookup cB.nodes newPB.nodeName = some ((NewNodeInfo.SetNode wNode1).AddPod oldPB) ∧
     getPodResizeRequirements newPB = .ok (rmapB, ⟨800, 1536⟩) ∧
     alookup cB.podStates (getPodKey oldPB) = some ⟨oldPB, none, false⟩ ∧
     commitStep rmapB newPB.containers oldPB.containers = .ok (ncsB, ncsB, rbsB) ∧
     capacityOK ((NewNodeInfo.SetNode wNode1).AddPod oldPB) ⟨800, 1536⟩) ∧
    (((cB.processPodResourcesScaling oldPB newPB).2.2 = none ∧
        ((cB.processPodResourcesScaling oldPB newPB).2.1).resizeResources.map
          ResizeResources.action = some ResizeAction.update) ↔
      capacityOK ((NewNodeInfo.SetNode wNode1).AddPod oldPB) ⟨800, 1536⟩) ∧
    (((cB.processPodResourcesScaling oldPB newPB).2.1).containers = ncsB ∧
     ((cB.processPodResourcesScaling oldPB newPB).2.1).resizeResources
       = some ⟨[], newPB.resourceVersion, ResizeAction.update, rbsB⟩ ∧
     alookup ((cB.processPodResourcesScaling oldPB newPB).1).podStates (getPodKey oldPB)
       = some (rbState ⟨oldPB, none, false⟩ ncsB) ∧
     rbsB = rollbackRecords rmapB newPB.containers ∧
     List.Forall₂ (commitRel rmapB) newPB.containers ncsB) := by
  have h := resize_commit_iff_capacity cB oldPB newPB
    ((NewNodeInfo.SetNode wNode1).AddPod oldPB)
    ⟨[⟨"c1", .entries (some 800) (some 1536), .entries none none⟩], "v0", .unset, []⟩
    rmapB ⟨800, 1536⟩ ⟨oldPB, none, false⟩ ncsB ncsB rbsB
    (by decide) (by rfl) (by decide) (by decide) (by rfl) (by decide) (by decide) (by rfl)
  exact ⟨⟨by decide, by rfl, by decide, by rfl, ⟨by decide, by decide⟩⟩, h.1,
    h.2.1 ⟨by decide, by decide⟩⟩

/-! ### C7: disruption-budget consultation -/

/-- A budget that blocks disruption for the given label set: its selector
parsed to a non-empty requirement list that matches the labels, and no
disruptions are allowed. -/
def pdbBlocks (lbls : List (String × String)) (pdb : PDB) : Bool :=
  match pdb.selector with
  | some reqs =>
    decide (¬ (reqs = [] ∨ labelsMatch reqs lbls = false) ∧ pdb.disruptionsAllowed ≤ 0)
  | none => false

lemma exists_mem_cons_false {α : Type} (p : α → Bool) (a : α) (l : List α)
    (ha : p a = false) : ((∃ x ∈ a :: l, p x = true) ↔ (∃ x ∈ l, p x = true)) := by
  constructor
  · rintro ⟨x, hx, hpx⟩
    rcases List.mem_cons.1 hx with h | h
    · rw [h, ha] at hpx
      exact Bool.noConfusion hpx
    · exact ⟨x, h, hpx⟩
  · rintro ⟨x, hx, hpx⟩
    exact ⟨x, List.mem_cons_of_mem a hx, hpx⟩

/-- A budget whose selector parses to an empty or non-matching requirement
list never influences the scan, wherever it sits in the list. -/
lemma pdbScan_skip (lbls : List (String × String)) (pdb : PDB)
    (reqs : List (String × String)) (hsel : pdb.selector = some reqs)
    (hig : reqs = [] ∨ labelsMatch reqs lbls = false) :
    ∀ pre post, pdbScan lbls (pre ++ pdb :: post) = pdbScan lbls (pre ++ post) := by
  intro pre
  induction pre with
  | nil =>
    intro post
    simp only [List.nil_append, pdbScan, hsel]
    rw [if_pos hig]
  | cons q pre ih =>
    intro post
    cases hq : q.selector with
    | none => simp only [List.cons_append, pdbScan, hq]
    | some r =>
      simp only [List.cons_append, pdbScan, hq]
      by_cases h1 : r = [] ∨ labelsMatch r lbls = false
      · rw [if_pos h1, if_pos h1]
        exact ih post
      · rw [if_neg h1, if_neg h1]
        by_cases h2 : q.disruptionsAllowed ≤ 0
        · rw [if_pos h2, if_pos h2]
        · rw [if_neg h2, if_neg h2]
          exact ih post

/-- When every selector in the list parses, the scan decides `false` exactly
when some blocking budget occurs in the list. -/
lemma pdbScan_false_iff (lbls : List (String × String)) :
    ∀ l : List PDB, (∀ pdb ∈ l, pdb.selector ≠ none) →
      (pdbScan lbls l = Except.ok false ↔ ∃ pdb ∈ l, pdbBlocks lbls pdb = true) := by
  intro l
  induction l with
  | nil =>
    intro _
    simp [pdbScan]
  | cons pdb rest ih =>
    intro hall
    have ih2 := ih (fun q hq => hall q (List.mem_cons_of_mem pdb hq))
    cases hsel : pdb.selector with
    | none => exact absurd hsel (hall pdb (List.mem_cons_self pdb rest))
    | some reqs =>
      simp only [pdbScan, hsel]
      by_cases hskip : reqs = [] ∨ labelsMatch reqs lbls = false
      · rw [if_pos hskip]
        have hb : pdbBlocks lbls pdb = false := by
          simp only [pdbBlocks, hsel]
          exact decide_eq_false (fun hh => hh.1 hskip)
        rw [ih2]
        exact (exists_mem_cons_false (pdbBlocks lbls) pdb rest hb).symm
      · rw [if_neg hskip]
        by_cases hal : pdb.disruptionsAllowed ≤ 0
        · rw [if_pos hal]
          constructor
          · intro
            refine ⟨pdb, List.mem_cons_self pdb rest, ?_⟩
            simp only [pdbBlocks, hsel]
            exact decide_eq_true ⟨hskip, hal⟩
          · intro
            rfl
        · rw [if_neg hal]
          have hb : pdbBlocks lbls pdb = false := by
            simp only [pdbBlocks, hsel]
            exact decide_eq_false (fun hh => hal hh.2)
          rw [ih2]
          exact (exists_mem_cons_false (pdbBlocks lbls) pdb rest hb).symm

/-- When no blocking budget can decide the scan, a budget whose selector
fails to parse makes the scan return the selector error. -/
lemma pdbScan_error_of_bad (lbls : List (String × String)) :
    ∀ l : List PDB, (∀ pdb ∈ l, pdbBlocks lbls pdb = false) →
      (∃ pdb ∈ l, pdb.selector = none) →
      pdbScan lbls l = Except.error CacheErr.pdbSelectorInvalid := by
  intro l
  induction l with
  | nil =>
    intro _ hbad
    simp at hbad
  | cons pdb rest ih =>
    intro hnb hbad
    cases hsel : pdb.selector with
    | none => simp only [pdbScan, hsel]
    | some reqs =>
      have hbadr : ∃ q ∈ rest, q.selector = none := by
        rcases hbad with ⟨q, hq, hqsel⟩
        rcases List.mem_cons.1 hq with h | h
        · rw [h, hsel] at hqsel
          exact Option.noConfusion hqsel
        · exact ⟨q, h, hqsel⟩
      have ihr := ih (fun q hq => hnb q (List.mem_cons_of_mem pdb hq)) hbadr
      simp only [pdbScan, hsel]
      by_cases hskip : reqs = [] ∨ labelsMatch reqs lbls = false
      · rw [if_pos hskip]
        exact ihr
      · rw [if_neg hskip]
        have hb := hnb pdb (List.mem_cons_self pdb rest)
        simp only [pdbBlocks, hsel] at hb
        have hal : ¬ pdb.disruptionsAllowed ≤ 0 := by
          intro hle
          exact of_decide_eq_false hb ⟨hskip, hle⟩
        rw [if_neg hal]
        exact ihr

/-- C7 (amended): during disruption-budget consultation, budgets whose parsed
selector is empty or does not match the workload's labels never influence the
scan; when every selector parses, the scan decides `false` exactly when some
matching budget with `disruptionsAllowed ≤ 0` occurs; a selector-parse
failure is returned as an error only when no blocking budget decides the scan
first (the scan runs in list order and stops at the first decision); and in
the resize engine, a labelled pod whose resize fails the capacity check under
a policy that is neither Restart nor InPlaceOnly is stamped
NonePerPDBViolation with no error when the scan decides `false`, while a scan
error is propagated to the caller. -/
theorem checkPDB_spec (c : SchedCache) (o np : Pod) (node : NodeInfo)
    (rr : ResizeResources) (rmap : List (String × Container)) (prosp : Resource)
    (hn : alookup c.nodes np.nodeName = some node)
    (hrr : np.resizeResources = some rr)
    (hreq : rr.request ≠ [])
    (hnostat : np.conditions.find? isResizeStatusCond = none)
    (hparse : getPodResizeRequirements np = .ok (rmap, prosp))
    (hpol1 : np.resizeResourcesPolicy ≠ ResizePolicy.restart)
    (hpol2 : np.resizeResourcesPolicy ≠ ResizePolicy.inPlaceOnly)
    (hcap : ¬ capacityOK node prosp)
    (hlbl : np.labels ≠ []) :
    (∀ lbls pre post pdb reqs, pdb.selector = some reqs →
        reqs = [] ∨ labelsMatch reqs lbls = false →
        pdbScan lbls (pre ++ pdb :: post) = pdbScan lbls (pre ++ post)) ∧
    (∀ lbls l, (∀ pdb ∈ l, pdb.selector ≠ none) →
        (pdbScan lbls l = Except.ok false ↔ ∃ pdb ∈ l, pdbBlocks lbls pdb = true)) ∧
    (∀ lbls l, (∀ pdb ∈ l, pdbBlocks lbls pdb = false) →
        (∃ pdb ∈ l, pdb.selector = none) →
        pdbScan lbls l = Except.error CacheErr.pdbSelectorInvalid) ∧
    (pdbScan np.labels c.listPDBs = Except.ok false →
        (c.processPodResourcesScaling o np).2.2 = none ∧
        ((c.processPodResourcesScaling o np).2.1).resizeResources.map
          ResizeResources.action = some ResizeAction.nonePerPDBViolation ∧
        (c.processPodResourcesScaling o np).1 = c) ∧
    (∀ e, pdbScan np.labels c.listPDBs = Except.error e →
        (c.processPodResourcesScaling o np).2.2 = some e) := by
  have hstat : c.processPodResizeStatus o np = .ok (c, np) := by
    simp [SchedCache.processPodResizeStatus, hnostat]
  have hlen : rr.request.length ≠ 0 := fun hh => hreq (List.length_eq_zero.1 hh)
  have hE1 : (if np.resizeResourcesPolicy = ResizePolicy.unset then
      ResizePolicy.inPlacePreferred else np.resizeResourcesPolicy)
      ≠ ResizePolicy.restart := by
    by_cases hu : np.resizeResourcesPolicy = ResizePolicy.unset
    · simp [hu]
    · rw [if_neg hu]
      exact hpol1
  have hE2 : (if np.resizeResourcesPolicy = ResizePolicy.unset then
      ResizePolicy.inPlacePreferred else np.resizeResourcesPolicy)
      ≠ ResizePolicy.inPlaceOnly := by
    by_cases hu : np.resizeResourcesPolicy = ResizePolicy.unset
    · simp [hu]
    · rw [if_neg hu]
      exact hpol2
  have hlp : np.labels.length > 0 := List.length_pos.2 hlbl
  refine ⟨?_, ?_, ?_, ?_, ?_⟩
  · intro lbls pre post pdb reqs hsel hig
    exact pdbScan_skip lbls pdb reqs hsel hig pre post
  · intro lbls l hall
    exact pdbScan_false_iff lbls l hall
  · intro lbls l hnb hbad
    exact pdbScan_error_of_bad lbls l hnb hbad
  · intro hscan
    have hR : c.processPodResourcesScaling o np
        = (c, { np with resizeResources := some { rr with
              request := [],
              actionVersion := np.resourceVersion,
              action := ResizeAction.nonePerPDBViolation } }, none) := by
      simp only [SchedCache.processPodResourcesScaling, hn, hstat, hrr]
      rw [if_pos hlen, if_neg hE1]
      simp only [hparse]
      rw [if_neg (show ¬ (_ ∧ _) from hcap), if_neg hE2]
      simp only [SchedCache.checkPodDisruptionBudgetOk, Pod.withRR]
      rw [if_pos hlp]
      simp only [hscan]
      simp
    rw [hR]
    exact ⟨rfl, rfl, rfl⟩
  · intro e hscanE
    have hR : c.processPodResourcesScaling o np
        = (c, { np with resizeResources := some { rr with
              request := [],
              actionVersion := np.resourceVersion } }, some e) := by
      simp only [SchedCache.processPodResourcesScaling, hn, hstat, hrr]
      rw [if_pos hlen, if_neg hE1]
      simp only [hparse]
      rw [if_neg (show ¬ (_ ∧ _) from hcap), if_neg hE2]
      simp only [SchedCache.checkPodDisruptionBudgetOk, Pod.withRR]
      rw [if_pos hlp]
      simp only [hscanE]
    rw [hR]

/-- The cached pod of the C7 fixtures. -/
def oldPP : Pod :=
  { ns := "d", name := "p", nodeName := "n1", resourceVersion := "v1",
    labels := [("app", "web")],
    containers := [⟨"c1", .entries (some 500) (some 1024), .entries none none⟩],
    phase := .running, deletionTimestamp := none, conditions := [],
    resizeResourcesPolicy := .unset, resizeResources := none }

/-- The incoming pod of the C7 fixtures: an over-capacity resize request
under the default policy, on a labelled pod. -/
def newPP : Pod :=
  { ns := "d", name := "p", nodeName := "n1", resourceVersion := "v2",
    labels := [("app", "web")],
    containers := [⟨"c1", .entries (some 500) (some 1024), .entries none none⟩],
    phase := .running, deletionTimestamp := none, conditions := [],
    resizeResourcesPolicy := .unset,
    resizeResources := some ⟨[⟨"c1", .entries (some 5000) none, .entries none none⟩],
      "v0", .unset, []⟩ }

/-- A budget that matches `newPP`'s labels with no disruptions allowed. -/
def pdbBlockW : PDB := ⟨"pdb1", "u1", [], some [("app", "web")], 0⟩

/-- A budget whose selector fails to parse. -/
def pdbBad7 : PDB := ⟨"pdb2", "u2", [], none, 5⟩

def cP : SchedCache :=
  { ttl := 10, assumedPods := [],
    podStates := [("d/p", ⟨oldPP, none, false⟩)],
    nodes := [("n1", (NewNodeInfo.SetNode wNode1).AddPod oldPP)],
    pdbs := [("pdb1", pdbBlockW)] }

/-- A cache whose budget list holds a blocking budget ahead of a budget with
an unparsable selector. -/
def cCE7 : SchedCache :=
  { ttl := 10, assumedPods := [], podStates := [], nodes := [],
    pdbs := [("pdb1", pdbBlockW), ("pdb2", pdbBad7)] }

def rmapP : List (String × Container) :=
  [("c1", ⟨"c1", .entries (some 5000) none, .entries none none⟩)]

/-- Counterexample to C7 as stated: the scan walks the budget list in order
and stops at the first decision, so a blocking budget ahead of a budget whose
selector fails to parse yields the decision `false` — the consultation does
not return an error whenever *any* budget's selector fails to parse. -/
theorem PDB_claim_counterexample :
    (∃ pdb ∈ cCE7.listPDBs, pdb.selector = none) ∧
    cCE7.checkPodDisruptionBudgetOk newPP = Except.ok false := by
  exact ⟨⟨pdbBad7, by decide, rfl⟩, rfl⟩

/-- Witness for C7 on the concrete PDB-blocked reschedule attempt. -/
theorem checkPDB_spec_witness :
    (alookup cP.nodes newPP.nodeName = some ((NewNodeInfo.SetNode wNode1).AddPod oldPP) ∧
     getPodResizeRequirements newPP = Except.ok (rmapP, ⟨5000, 1024⟩) ∧
     ¬ capacityOK ((NewNodeInfo.SetNode wNode1).AddPod oldPP) ⟨5000, 1024⟩ ∧
     pdbScan newPP.labels cP.listPDBs = Except.ok false) ∧
    ((cP.processPodResourcesScaling oldPP newPP).2.2 = none ∧
     ((cP.processPodResourcesScaling oldPP newPP).2.1).resizeResources.map
       ResizeResources.action = some ResizeAction.nonePerPDBViolation ∧
     (cP.processPodResourcesScaling oldPP newPP).1 = cP) := by
  have h := checkPDB_spec cP oldPP newPP ((NewNodeInfo.SetNode wNode1).AddPod oldPP)
    ⟨[⟨"c1", .entries (some 5000) none, .entries none none⟩], "v0", .unset, []⟩
    rmapP ⟨5000, 1024⟩
    (by decide) (by rfl) (by decide) (by rfl) (by rfl)
    (by decide) (by decide)
    (by intro hcp; exact absurd hcp.1 (by decide)) (by decide)
  exact ⟨⟨by decide, by rfl, by intro hcp; exact absurd hcp.1 (by decide), by rfl⟩,
    h.2.2.2.1 (by rfl)⟩
